import Mathlib

/-!
# Anonymous memory mapper (`dump_ram_v2.c`)

A shallow embedding of `mmap_anon_mem` and of `main` with its two input loops; the
arithmetic helpers of `math_utils.c` follow in the namespace `MathUtils`, with `float` and
`double` taken from the namespace `IEEE`.

* Pointers and `size_t` values are natural numbers; arithmetic on the loop counters is
  taken modulo `2 ^ 64`.
* The operating system is an explicit parameter (`OS`) giving the result of every system
  call the program makes; the program's observable behaviour is the list of `Event`s it
  produces, in program order.
* The two fault-in loops take a fuel argument: `none` means that the loop did not finish
  within the given number of condition checks.
-/

namespace DumpRam

/-! ## Platform constants (x86_64 Linux) -/

/-- Largest value of `size_t` / `unsigned long long`. -/
def SIZE_MAX : Nat := 2 ^ 64 - 1

/-- The null pointer. -/
def NULL : Nat := 0

/-- The value `MAP_FAILED`, that is `(void *) -1`. -/
def MAP_FAILED : Nat := 2 ^ 64 - 1

/-- The end of the user address space of x86_64 Linux, `TASK_SIZE_MAX`, with 5-level paging:
`(1 << 56) - PAGE_SIZE`. With 4-level paging the bound is the smaller `(1 << 47) - PAGE_SIZE`.
Every region that `mmap` returns lies below it. -/
def TASK_SIZE_MAX : Nat := 2 ^ 56 - 4096

/-! ## The operating system and the trace of interactions -/

/-- Results of the system calls used by the program. -/
structure OS where
  /-- Result of `mmap(NULL, length, PROT_READ | PROT_WRITE, MAP_PRIVATE | MAP_ANONYMOUS, -1, 0)`. -/
  mmap : Nat → Nat
  /-- Result of `madvise(addr, length, MADV_HUGEPAGE)`. -/
  madvise : Nat → Nat → Int
  /-- Result of `munmap(addr, length)`. -/
  munmap : Nat → Nat → Int

/-- One observable action of the program. -/
inductive Event where
  /-- The call `mmap(NULL, length, ...)`. -/
  | mmap (length : Nat)
  /-- The call `madvise(addr, length, MADV_HUGEPAGE)`. -/
  | madvise (addr length : Nat)
  /-- The call `munmap(addr, length)`. -/
  | munmap (addr length : Nat)
  /-- The store `((volatile char*)addr)[offset] = byte`. -/
  | write (addr offset byte : Nat)
  /-- Text printed with `printf`. -/
  | stdout (text : String)
  /-- A call of `perror` with the given label. -/
  | perror (label : String)
  deriving DecidableEq

/-- Offsets of the fault-in writes of a trace, in order. -/
def writeOffsets : List Event → List Nat
  | [] => []
  | Event.write _ o _ :: t => o :: writeOffsets t
  | _ :: t => writeOffsets t

/-- Arguments of the `mmap` calls of a trace, in order. -/
def mmapCalls : List Event → List Nat
  | [] => []
  | Event.mmap l :: t => l :: mmapCalls t
  | _ :: t => mmapCalls t

/-- Arguments of the `madvise` calls of a trace, in order. -/
def madviseCalls : List Event → List (Nat × Nat)
  | [] => []
  | Event.madvise a l :: t => (a, l) :: madviseCalls t
  | _ :: t => madviseCalls t

/-- Arguments of the `munmap` calls of a trace, in order. -/
def munmapCalls : List Event → List (Nat × Nat)
  | [] => []
  | Event.munmap a l :: t => (a, l) :: munmapCalls t
  | _ :: t => munmapCalls t

/-! ## `mmap_anon_mem` -/

/-- The loop `for (size_t a = start; a < length; a += step) ((volatile char*)addr)[a] = 0;`
with the counter kept modulo `2 ^ 64`. Each unit of fuel pays for one test of the loop
condition. -/
def faultLoop (addr step length : Nat) : Nat → Nat → Option (List Event)
  | 0, _ => none
  | fuel + 1, a =>
    if a < length then
      match faultLoop addr step length fuel ((a + step) % 2 ^ 64) with
      | none => none
      | some t => some (Event.write addr a 0 :: t)
    else some []

/-- The function `mmap_anon_mem(length, ask_huge_pages)`: the returned pointer together with
the trace of its actions, or `none` when a fault-in loop is still running after `fuel`
tests of its condition. -/
def mmap_anon_mem (os : OS) (fuel length : Nat) (ask_huge_pages : Bool) :
    Option (Nat × List Event) :=
  let addr := os.mmap length
  if addr = MAP_FAILED then
    some (NULL, [Event.mmap length, Event.perror "mmap()"])
  else if ask_huge_pages then
    if os.madvise addr length ≠ 0 then
      some (NULL, [Event.mmap length, Event.stdout "Asking for THP...\n",
        Event.madvise addr length, Event.perror "madvise()", Event.munmap addr length])
    else
      match faultLoop addr (2 * 1024 * 1024) length fuel 0 with
      | none => none
      | some coarse =>
        match faultLoop addr 4096 length fuel 0 with
        | none => none
        | some fine =>
          some (addr, [Event.mmap length, Event.stdout "Asking for THP...\n",
            Event.madvise addr length] ++ coarse ++ fine)
  else
    match faultLoop addr 4096 length fuel 0 with
    | none => none
    | some fine => some (addr, [Event.mmap length] ++ fine)

/-! ## The length-reading loop of `main` -/

/-- The test `isspace(c)` in the C locale. -/
def isspace (c : Char) : Bool :=
  c = ' ' || c = '\t' || c = '\n' || c = Char.ofNat 11 || c = Char.ofNat 12 || c = '\r'

/-- The test `isdigit(c)`. -/
def isdigit (c : Char) : Bool :=
  decide ('0' ≤ c) && decide (c ≤ '9')

/-- Value of a decimal numeral given by its digits, most significant first. -/
def digitsValue (ds : List Char) : Nat :=
  ds.foldl (fun acc c => 10 * acc + (c.toNat - 48)) 0

/-- What `strtoull` reports: the returned value, the position `end - nptr` and whether
`errno` was set to `ERANGE`. -/
structure StrtoullResult where
  /-- The returned `unsigned long long`. -/
  value : Nat
  /-- The index of `*end` in the scanned string. -/
  endIdx : Nat
  /-- Whether `errno` was set to `ERANGE`. -/
  erange : Bool
  deriving DecidableEq

/-- The C library call `strtoull(s, &end, 10)` on the characters of `s` that precede its
terminating NUL (ISO C 7.22.1.4): white space is skipped, one optional sign is read, then
the longest run of decimal digits. Without digits no conversion is made and `end` is `s`.
A numeral above `ULLONG_MAX` gives `ULLONG_MAX` with `ERANGE`; otherwise the value is negated
in the unsigned type when the sign is a minus. -/
def strtoull (s : List Char) : StrtoullResult :=
  let ws := (s.takeWhile isspace).length
  let s1 := s.drop ws
  let neg : Bool := s1.head? = some '-'
  let signLen : Nat := if s1.head? = some '-' ∨ s1.head? = some '+' then 1 else 0
  let ds := (s1.drop signLen).takeWhile isdigit
  if ds = [] then { value := 0, endIdx := 0, erange := false }
  else if digitsValue ds > 2 ^ 64 - 1 then
    { value := 2 ^ 64 - 1, endIdx := ws + signLen + ds.length, erange := true }
  else
    { value := if neg then (2 ^ 64 - digitsValue ds) % 2 ^ 64 else digitsValue ds,
      endIdx := ws + signLen + ds.length, erange := false }

/-- Characters that `fgets` stores when it may still store `n` of them, and the rest of the
stream: it stops after a newline, at the end of the stream, or when `n` is used up. -/
def fgetsChars : Nat → List Char → List Char × List Char
  | 0, s => ([], s)
  | _ + 1, [] => ([], [])
  | n + 1, c :: s =>
    if c = '\n' then ([c], s) else ((fgetsChars n s).1.cons c, (fgetsChars n s).2)

/-- The call `fgets(buf, size, stdin)`: `none` for a null result (end of file with nothing
read), otherwise the characters stored in `buf` before the terminating NUL and the rest of
the stream. -/
def fgets (size : Nat) (stdin : List Char) : Option (List Char × List Char) :=
  match stdin with
  | [] => none
  | _ :: _ => some (fgetsChars (size - 1) stdin)

/-- The byte `buf[i]` of a buffer holding `chars` followed by a NUL. -/
def bufAt (chars : List Char) (i : Nat) : Char :=
  (chars ++ [Char.ofNat 0]).getD i (Char.ofNat 0)

/-- The C string held by a buffer: its characters up to the first NUL. -/
def cstr (chars : List Char) : List Char :=
  chars.takeWhile (fun c => c != Char.ofNat 0)

/-- One pass through the body of the length-reading loop after a successful `fgets`
(lines 35 to 53): `none` when the body ends in `continue`, `some length` when it reaches
`break` with `length` assigned. -/
def lengthLine (buf : List Char) : Option Nat :=
  if bufAt buf 0 = '-' ∨ bufAt buf 0 = '0' then none
  else
    let r := strtoull (cstr buf)
    if r.erange = true ∨ r.endIdx = 0 ∨
        (bufAt buf r.endIdx ≠ '\n' ∧ bufAt buf r.endIdx ≠ Char.ofNat 0) ∨ r.value > SIZE_MAX then
      none
    else some (r.value % 2 ^ 64)

/-- The length-reading loop of `main` run on the stream `stdin`: `none` when `main` returns
`EXIT_FAILURE` from inside the loop, otherwise the accepted length and the unread rest of
the stream. Every pass consumes at least one character, so `fuel` above the length of the
stream is never used up. -/
def readLengthLoop : Nat → List Char → Option (Nat × List Char)
  | 0, _ => none
  | fuel + 1, stdin =>
    match fgets 128 stdin with
    | none => none
    | some (buf, rest) =>
      match lengthLine buf with
      | some length => some (length, rest)
      | none => readLengthLoop fuel rest

/-- The length-reading loop of `main` (lines 31 to 54). -/
def readLength (stdin : List Char) : Option (Nat × List Char) :=
  readLengthLoop (stdin.length + 1) stdin

/-! ## The rest of `main` -/

/-- The flag-reading loop of `main` (lines 57 to 69) run on the stream `stdin` with at most
`fuel` passes: `none` when `main` returns `EXIT_FAILURE` from inside the loop, otherwise
the flag and the unread rest of the stream. -/
def readBoolLoop : Nat → List Char → Option (Bool × List Char)
  | 0, _ => none
  | fuel + 1, stdin =>
    match fgets 128 stdin with
    | none => none
    | some (buf, rest) =>
      if bufAt buf 0 = '0' ∧ (bufAt buf 1 = '\n' ∨ bufAt buf 1 = Char.ofNat 0) then
        some (false, rest)
      else if bufAt buf 0 = '1' ∧ (bufAt buf 1 = '\n' ∨ bufAt buf 1 = Char.ofNat 0) then
        some (true, rest)
      else readBoolLoop fuel rest

/-- The flag-reading loop of `main` (lines 57 to 69). -/
def readBool (stdin : List Char) : Option (Bool × List Char) :=
  readBoolLoop (stdin.length + 1) stdin

/-- The loop `do ch = getchar(); ... while (ch != '\n')` of lines 81 to 87: `true` when it
ends by reading a newline, `false` when `getchar` reports the end of the stream. -/
def waitEnter : List Char → Bool
  | [] => false
  | c :: s => if c = '\n' then true else waitEnter s

/-- The exit status `EXIT_SUCCESS`. -/
def EXIT_SUCCESS : Nat := 0

/-- The exit status `EXIT_FAILURE`. -/
def EXIT_FAILURE : Nat := 1

/-- The function `main` on the input stream `stdin`: its exit status and the trace of the
system calls on memory and of the fault-in writes, or `none` when a fault-in loop of
`mmap_anon_mem` is still running after `fuel` tests. Text written to the terminal by `main`
is not recorded. The value returned by `munmap` is discarded, as in the source. -/
def main (os : OS) (fuel : Nat) (stdin : List Char) : Option (Nat × List Event) :=
  match readLength stdin with
  | none => some (EXIT_FAILURE, [])
  | some (length, rest) =>
    match readBool rest with
    | none => some (EXIT_FAILURE, [])
    | some (ask_huge_pages, rest2) =>
      match mmap_anon_mem os fuel length ask_huge_pages with
      | none => none
      | some (ptr, t) =>
        if ptr = NULL then some (EXIT_FAILURE, t)
        else if waitEnter rest2 = true then some (EXIT_SUCCESS, t ++ [Event.munmap ptr length])
        else some (EXIT_FAILURE, t ++ [Event.munmap ptr length])

/-! ## Reference walks -/

/-- The writes of a walk of `n` steps of width `step` that starts at offset `a`. -/
def strideWrites (addr step a n : Nat) : List Event :=
  (List.range n).map (fun k => Event.write addr (a + k * step) 0)

/-- Number of multiples of `step` below `length`, that is `ceil (length / step)`. -/
def strideCount (step length : Nat) : Nat :=
  (length + step - 1) / step

/-! ## Sample operating systems -/

/-- An operating system on which every call succeeds; every mapping is placed at `base`. -/
def osOk (base : Nat) : OS :=
  { mmap := fun _ => base, madvise := fun _ _ => 0, munmap := fun _ _ => 0 }

/-- An operating system whose `mmap` always fails. -/
def osMmapFails : OS :=
  { mmap := fun _ => MAP_FAILED, madvise := fun _ _ => 0, munmap := fun _ _ => 0 }

/-- An operating system whose `mmap` succeeds at `base` and whose `madvise` always fails. -/
def osMadviseFails (base : Nat) : OS :=
  { mmap := fun _ => base, madvise := fun _ _ => -1, munmap := fun _ _ => 0 }

/-- An operating system that, like Linux, refuses a mapping of length 0 and otherwise
succeeds at `base`. -/
def osRefusesZero (base : Nat) : OS :=
  { mmap := fun l => if l = 0 then MAP_FAILED else base,
    madvise := fun _ _ => 0, munmap := fun _ _ => 0 }

/-- The operating system `os` with its `munmap` replaced by one that always succeeds. -/
def withMunmapOk (os : OS) : OS :=
  { mmap := os.mmap, madvise := os.madvise, munmap := fun _ _ => 0 }

/-- An operating system on which `mmap` and `madvise` succeed and every `munmap` fails. -/
def osMunmapFails (base : Nat) : OS :=
  { mmap := fun _ => base, madvise := fun _ _ => 0, munmap := fun _ _ => -1 }

end DumpRam

/-! # Binary floating point

The types `float` and `double` of x86_64 are the IEEE 754 formats binary32 and binary64.
A datum is a finite number `(-1) ^ neg * m * 2 ^ e`, an infinity or a NaN, and every
operation returns the exact result rounded to the nearest datum of the format, ties going to
the even significand. -/

namespace IEEE

/-- A binary format: the number `prec` of significand bits, and the least and the greatest
exponent of the unit in the last place. -/
structure Format where
  /-- Number of bits of the significand. -/
  prec : Nat
  /-- Exponent of the least positive datum. -/
  emin : Int
  /-- Greatest exponent of the unit in the last place. -/
  emax : Int

/-- The format of `float`. -/
def binary32 : Format := { prec := 24, emin := -149, emax := 104 }

/-- The format of `double`. -/
def binary64 : Format := { prec := 53, emin := -1074, emax := 971 }

/-- A floating-point datum. -/
inductive Val where
  /-- The finite number `(-1) ^ neg * m * 2 ^ e`; `m = 0` gives the signed zeros. -/
  | fin (neg : Bool) (m : Nat) (e : Int)
  /-- The infinity of the given sign. -/
  | inf (neg : Bool)
  /-- A NaN. -/
  | nan
  deriving DecidableEq

/-- Whether a datum belongs to the format `f`. -/
def inFormat (f : Format) : Val → Prop
  | Val.fin _ m e => m < 2 ^ f.prec ∧ f.emin ≤ e ∧ e ≤ f.emax
  | _ => True

/-- The comparison `x > 0`. -/
def isPos : Val → Bool
  | Val.fin s m _ => !s && decide (m ≠ 0)
  | Val.inf s => !s
  | Val.nan => false

/-- The comparison `x < 0`. -/
def ltZero : Val → Bool
  | Val.fin s m _ => s && decide (m ≠ 0)
  | Val.inf s => s
  | Val.nan => false

/-- The position of the leading bit of `n`, found by halving at most `fuel` times. -/
def log2Fuel : Nat → Nat → Nat
  | 0, _ => 0
  | fuel + 1, n => if n < 2 then 0 else log2Fuel fuel (n / 2) + 1

/-- The integer `floor (log2 n)` for `n ≥ 1`. -/
def log2 (n : Nat) : Nat := log2Fuel n n

/-- The integer `floor (log2 (N / D))` for `N, D ≥ 1`. -/
def floorLog2 (N D : Nat) : Int :=
  let t : Int := (log2 N : Int) - (log2 D : Int)
  if D * 2 ^ t.toNat ≤ N * 2 ^ (-t).toNat then t else t - 1

/-- The integer nearest to `A / B`, the even one when two are equally near. -/
def roundNearestEven (A B : Nat) : Nat :=
  if 2 * (A % B) < B then A / B
  else if B < 2 * (A % B) then A / B + 1
  else if (A / B) % 2 = 0 then A / B else A / B + 1

/-- The datum of format `f` nearest to `(-1) ^ neg * (N / D) * 2 ^ e`, ties to even: the unit
in the last place has the exponent `E` that leaves `prec` significant bits, but not below
`emin`; a significand rounded up to `2 ^ prec` moves to the next exponent, and a result
beyond the greatest finite datum is an infinity. -/
def round (f : Format) (neg : Bool) (N D : Nat) (e : Int) : Val :=
  if N = 0 then Val.fin neg 0 f.emin
  else
    let E : Int := max (floorLog2 N D + e - ((f.prec : Int) - 1)) f.emin
    let m := roundNearestEven (N * 2 ^ (e - E).toNat) (D * 2 ^ (E - e).toNat)
    if m = 2 ^ f.prec then
      if E + 1 > f.emax then Val.inf neg else Val.fin neg (2 ^ (f.prec - 1)) (E + 1)
    else
      if E > f.emax then Val.inf neg else Val.fin neg m E

/-- The integer `(-1) ^ s * m`. -/
def signed (s : Bool) (m : Nat) : Int :=
  if s then -(m : Int) else (m : Int)

/-- The negation `-x`. -/
def neg : Val → Val
  | Val.fin s m e => Val.fin (!s) m e
  | Val.inf s => Val.inf (!s)
  | Val.nan => Val.nan

/-- The sum `x + y`. An exact sum of zero is `+0` unless both terms are `-0`. -/
def add (f : Format) : Val → Val → Val
  | Val.nan, _ => Val.nan
  | _, Val.nan => Val.nan
  | Val.inf s, Val.inf t => if s = t then Val.inf s else Val.nan
  | Val.inf s, Val.fin _ _ _ => Val.inf s
  | Val.fin _ _ _, Val.inf t => Val.inf t
  | Val.fin s m e, Val.fin t n k =>
    let c : Int := signed s m * 2 ^ (e - min e k).toNat + signed t n * 2 ^ (k - min e k).toNat
    if c = 0 then Val.fin (s && t) 0 f.emin
    else round f (decide (c < 0)) c.natAbs 1 (min e k)

/-- The difference `x - y`. -/
def sub (f : Format) (x y : Val) : Val :=
  add f x (neg y)

/-- The product `x * y`. -/
def mul (f : Format) : Val → Val → Val
  | Val.nan, _ => Val.nan
  | _, Val.nan => Val.nan
  | Val.inf s, Val.inf t => Val.inf (xor s t)
  | Val.inf s, Val.fin t n _ => if n = 0 then Val.nan else Val.inf (xor s t)
  | Val.fin s m _, Val.inf t => if m = 0 then Val.nan else Val.inf (xor s t)
  | Val.fin s m e, Val.fin t n k => round f (xor s t) (m * n) 1 (e + k)

/-- The quotient `x / y`. -/
def div (f : Format) : Val → Val → Val
  | Val.nan, _ => Val.nan
  | _, Val.nan => Val.nan
  | Val.inf _, Val.inf _ => Val.nan
  | Val.inf s, Val.fin t _ _ => Val.inf (xor s t)
  | Val.fin s _ _, Val.inf t => Val.fin (xor s t) 0 f.emin
  | Val.fin s m e, Val.fin t n k =>
    if n = 0 then (if m = 0 then Val.nan else Val.inf (xor s t))
    else round f (xor s t) m n (e - k)

/-- A datum that is `+∞` or a finite number at least `2 ^ emin`, the least positive datum
of the format. -/
def AtLeastOne (f : Format) (r : Val) : Prop :=
  r = Val.inf false ∨ ∃ m E, r = Val.fin false m E ∧ 1 ≤ m ∧ f.emin ≤ E

/-- A datum that is `+∞` or a finite number at least `2 ^ (emin + 1)`. -/
def AtLeastTwo (f : Format) (r : Val) : Prop :=
  r = Val.inf false ∨
    ∃ m E, r = Val.fin false m E ∧ 1 ≤ m ∧ f.emin ≤ E ∧ (2 ≤ m ∨ f.emin < E)

end IEEE

/-! # Arithmetic helpers (`math_utils.c`)

The type `int` is modelled by the integers of the range `INT_MIN .. INT_MAX`, with results
brought back into the range by `wrap32`; `float` and `double` are the formats `binary32`
and `binary64` of the namespace `IEEE`. -/

namespace MathUtils

/-- The least `int`. -/
def INT_MIN : Int := -2 ^ 31

/-- The greatest `int`. -/
def INT_MAX : Int := 2 ^ 31 - 1

/-- Reduction of an integer modulo `2 ^ 32` to the range of `int`. -/
def wrap32 (z : Int) : Int :=
  (z + 2 ^ 31) % 2 ^ 32 - 2 ^ 31

/-- The function `clamp_i(value, min, max)`. -/
def clamp_i (value min max : Int) : Int :=
  if value < min then min
  else if value > max then max
  else value

/-- The function `abs_i(value)`: `mask = value >> 31` with an arithmetic shift, then
`(value ^ mask) - mask` modulo `2 ^ 32`. -/
def abs_i (value : Int) : Int :=
  let mask := value >>> 31
  wrap32 (Int.xor value mask - mask)

/-- The function `math_mod(x, y)`: `%` is the truncating remainder of C, which is undefined
(a division trap on x86_64) for `y = 0` and for `INT_MIN % -1`, giving `none`; the negation
and the addition are taken modulo `2 ^ 32`. -/
def math_mod (x y : Int) : Option Int :=
  if y = 0 ∨ (x = INT_MIN ∧ y = -1) then none
  else
    let r := Int.tmod x y
    some (if r < 0 then wrap32 (r + (if y > 0 then y else wrap32 (-y))) else r)

/-- The function `lerp(a, b, t)` on `float`: `a + ((b - a) * t)`. -/
def lerp (a b t : IEEE.Val) : IEEE.Val :=
  IEEE.add IEEE.binary32 a (IEEE.mul IEEE.binary32 (IEEE.sub IEEE.binary32 b a) t)

/-- The constant `0.5`. -/
def half : IEEE.Val := IEEE.Val.fin false 1 (-1)

/-- The constant `2.0`. -/
def two : IEEE.Val := IEEE.Val.fin false 1 1

/-- The constant `-1.0`. -/
def minusOne : IEEE.Val := IEEE.Val.fin true 1 0

/-- The body of the loop of `newton_sqrt_manual` on `double`:
`guess = 0.5 * (guess + (x / guess))`. -/
def newtonStep (x guess : IEEE.Val) : IEEE.Val :=
  IEEE.mul IEEE.binary64 half (IEEE.add IEEE.binary64 guess (IEEE.div IEEE.binary64 x guess))

/-- The loop of `newton_sqrt_manual` run for `n` passes from `guess`: the final guess and
the divisors of the divisions `x / guess` it made, in order. -/
def newtonLoop (x : IEEE.Val) : Nat → IEEE.Val → IEEE.Val × List IEEE.Val
  | 0, guess => (guess, [])
  | n + 1, guess =>
    ((newtonLoop x n (newtonStep x guess)).1, guess :: (newtonLoop x n (newtonStep x guess)).2)

/-- The function `newton_sqrt_manual(x, iterations)` on `double`: the returned value and the
divisors of the divisions `x / guess` it made, in order; a negative `iterations` runs no
pass. The message written to `stderr` for `x < 0` is not recorded. -/
def newton_sqrt_manual (x : IEEE.Val) (iterations : Int) : IEEE.Val × List IEEE.Val :=
  if IEEE.ltZero x = true then (minusOne, [])
  else newtonLoop x iterations.toNat (IEEE.div IEEE.binary64 x two)

end MathUtils

namespace DumpRam

/-! ## Projections of a trace -/

theorem writeOffsets_append (s t : List Event) :
    writeOffsets (s ++ t) = writeOffsets s ++ writeOffsets t := by
  induction s with
  | nil => rfl
  | cons e s ih => cases e <;> simp [writeOffsets, ih]

theorem madviseCalls_append (s t : List Event) :
    madviseCalls (s ++ t) = madviseCalls s ++ madviseCalls t := by
  induction s with
  | nil => rfl
  | cons e s ih => cases e <;> simp [madviseCalls, ih]

theorem munmapCalls_append (s t : List Event) :
    munmapCalls (s ++ t) = munmapCalls s ++ munmapCalls t := by
  induction s with
  | nil => rfl
  | cons e s ih => cases e <;> simp [munmapCalls, ih]

theorem mmapCalls_append (s t : List Event) :
    mmapCalls (s ++ t) = mmapCalls s ++ mmapCalls t := by
  induction s with
  | nil => rfl
  | cons e s ih => cases e <;> simp [mmapCalls, ih]

theorem strideWrites_succ (addr step a n : Nat) :
    strideWrites addr step a (n + 1) =
      Event.write addr a 0 :: strideWrites addr step (a + step) n := by
  unfold strideWrites
  rw [List.range_succ_eq_map, List.map_cons, List.map_map]
  refine congrArg₂ _ (by simp) (List.map_congr_left fun k _ => ?_)
  simp only [Function.comp_apply, Nat.succ_eq_add_one, Nat.add_mul, Nat.one_mul]
  congr 1
  omega

theorem writeOffsets_strideWrites (addr step a n : Nat) :
    writeOffsets (strideWrites addr step a n) = (List.range n).map (fun k => a + k * step) := by
  induction n generalizing a with
  | zero => rfl
  | succ n ih =>
    rw [strideWrites_succ, writeOffsets, ih, List.range_succ_eq_map, List.map_cons, List.map_map]
    refine congrArg₂ _ (by simp) (List.map_congr_left fun k _ => ?_)
    simp only [Function.comp_apply, Nat.succ_eq_add_one, Nat.add_mul, Nat.one_mul]
    omega

theorem madviseCalls_strideWrites (addr step a n : Nat) :
    madviseCalls (strideWrites addr step a n) = [] := by
  induction n generalizing a with
  | zero => rfl
  | succ n ih => simp [strideWrites_succ, madviseCalls, ih]

theorem munmapCalls_strideWrites (addr step a n : Nat) :
    munmapCalls (strideWrites addr step a n) = [] := by
  induction n generalizing a with
  | zero => rfl
  | succ n ih => simp [strideWrites_succ, munmapCalls, ih]

theorem mmapCalls_strideWrites (addr step a n : Nat) :
    mmapCalls (strideWrites addr step a n) = [] := by
  induction n generalizing a with
  | zero => rfl
  | succ n ih => simp [strideWrites_succ, mmapCalls, ih]

/-! ## The fault-in loop without wrap-around -/

/-- A loop whose counter cannot wrap performs the walk of `n` steps, where `n` is the first
step count that reaches `length`. -/
theorem faultLoop_steps (addr step length : Nat) (hlen : length + step ≤ 2 ^ 64) :
    ∀ n a fuel, n < fuel → length ≤ a + n * step → (∀ k, k < n → a + k * step < length) →
      faultLoop addr step length fuel a = some (strideWrites addr step a n) := by
  intro n
  induction n with
  | zero =>
    intro a fuel hf hge _
    cases fuel with
    | zero => omega
    | succ f =>
      have : ¬ a < length := by omega
      simp [faultLoop, this, strideWrites]
  | succ n ih =>
    intro a fuel hf hge hlt
    cases fuel with
    | zero => omega
    | succ f =>
      have h0 : a < length := by simpa using hlt 0 (Nat.succ_pos n)
      have hmod : (a + step) % 2 ^ 64 = a + step := Nat.mod_eq_of_lt (by omega)
      have hge2 : length ≤ a + step + n * step := by
        rw [Nat.add_mul, Nat.one_mul] at hge
        omega
      have hlt2 : ∀ k, k < n → a + step + k * step < length := by
        intro k hk
        have := hlt (k + 1) (by omega)
        rw [Nat.add_mul, Nat.one_mul] at this
        omega
      rw [faultLoop, if_pos h0, hmod, ih (a + step) f (by omega) hge2 hlt2, strideWrites_succ]

theorem strideCount_reaches (step length : Nat) (hstep : 0 < step) :
    length ≤ strideCount step length * step := by
  unfold strideCount
  have h1 := Nat.div_add_mod (length + step - 1) step
  have h2 := Nat.mod_lt (length + step - 1) hstep
  rw [Nat.mul_comm] at h1
  omega

theorem lt_strideCount_iff (step length k : Nat) (hstep : 0 < step) :
    k < strideCount step length ↔ k * step < length := by
  unfold strideCount
  rw [Nat.lt_iff_add_one_le, Nat.le_div_iff_mul_le hstep, Nat.add_mul, Nat.one_mul]
  omega

/-- From offset 0 and with enough fuel, a loop whose counter cannot wrap writes exactly the
multiples of `step` below `length`, in ascending order. -/
theorem faultLoop_eq (addr step length fuel : Nat) (hstep : 0 < step)
    (hlen : length + step ≤ 2 ^ 64) (hfuel : strideCount step length < fuel) :
    faultLoop addr step length fuel 0 =
      some (strideWrites addr step 0 (strideCount step length)) := by
  apply faultLoop_steps addr step length hlen _ 0 fuel hfuel
  · simpa using strideCount_reaches step length hstep
  · intro k hk
    simpa using (lt_strideCount_iff step length k hstep).1 hk

theorem strideCount_le (step length : Nat) (hstep : 0 < step) :
    strideCount step length ≤ length := by
  unfold strideCount
  rcases Nat.eq_zero_or_pos length with h | h
  · subst h
    simp [Nat.div_eq_of_lt (Nat.sub_lt hstep Nat.one_pos)]
  · calc (length + step - 1) / step ≤ (length * step) / step := by
          apply Nat.div_le_div_right
          have : length + step ≤ length * step + 1 := by
            obtain ⟨l, rfl⟩ : ∃ l, length = l + 1 := ⟨length - 1, by omega⟩
            obtain ⟨s, rfl⟩ : ∃ s, step = s + 1 := ⟨step - 1, by omega⟩
            nlinarith
          omega
      _ = length := Nat.mul_div_cancel _ hstep

theorem strideWrites_zero_start (addr step n : Nat) :
    strideWrites addr step 0 n = (List.range n).map (fun k => Event.write addr (k * step) 0) := by
  simp [strideWrites]

theorem writeOffsets_strideWrites_zero (addr step n : Nat) :
    writeOffsets (strideWrites addr step 0 n) = (List.range n).map (fun k => k * step) := by
  simp [writeOffsets_strideWrites]

/-- The offsets of a walk are exactly the multiples of `step` below `length`. -/
theorem mem_strideOffsets (step length o : Nat) (hstep : 0 < step) :
    o ∈ (List.range (strideCount step length)).map (fun k => k * step) ↔
      o % step = 0 ∧ o < length := by
  simp only [List.mem_map, List.mem_range]
  constructor
  · rintro ⟨k, hk, rfl⟩
    exact ⟨Nat.mul_mod_left k step, (lt_strideCount_iff step length k hstep).1 hk⟩
  · rintro ⟨hmod, hlt⟩
    have hk : o / step * step = o := Nat.div_mul_cancel (Nat.dvd_of_mod_eq_zero hmod)
    exact ⟨o / step, (lt_strideCount_iff step length _ hstep).2 (by omega), hk⟩

/-- The offsets of a walk are strictly ascending. -/
theorem strideOffsets_ascending (step n : Nat) (hstep : 0 < step) :
    List.Pairwise (fun x y => x < y) ((List.range n).map (fun k => k * step)) := by
  rw [List.pairwise_map]
  exact (List.pairwise_lt_range n).imp (fun h => Nat.mul_lt_mul_of_pos_right h hstep)

theorem strideCount_fine (length : Nat) :
    strideCount 4096 length = (length + 4095) / 4096 := by
  unfold strideCount
  rw [Nat.add_sub_assoc (by norm_num : 1 ≤ 4096)]

theorem strideCount_coarse (length : Nat) :
    strideCount 2097152 length = (length + 2097151) / 2097152 := by
  unfold strideCount
  rw [Nat.add_sub_assoc (by norm_num : 1 ≤ 2097152)]

/-! ## Successful runs of `mmap_anon_mem` -/

/-- Without a huge-page request: the mapping call, then the 4096-byte walk. -/
theorem mmap_anon_mem_plain (os : OS) (fuel length : Nat)
    (hmap : os.mmap length ≠ MAP_FAILED) (hlen : length + 4096 ≤ 2 ^ 64)
    (hfuel : length < fuel) :
    mmap_anon_mem os fuel length false =
      some (os.mmap length, [Event.mmap length] ++
        strideWrites (os.mmap length) 4096 0 (strideCount 4096 length)) := by
  have hf := Nat.lt_of_le_of_lt (strideCount_le 4096 length (by norm_num)) hfuel
  simp [mmap_anon_mem, hmap, faultLoop_eq _ 4096 length fuel (by norm_num) hlen hf]

/-- With a huge-page request that the OS accepts: the mapping call, the advisory call, the
2 MiB walk and then the 4096-byte walk. -/
theorem mmap_anon_mem_huge (os : OS) (fuel length : Nat)
    (hmap : os.mmap length ≠ MAP_FAILED) (hadv : os.madvise (os.mmap length) length = 0)
    (hlen : length + 2097152 ≤ 2 ^ 64) (hfuel : length < fuel) :
    mmap_anon_mem os fuel length true =
      some (os.mmap length, [Event.mmap length, Event.stdout "Asking for THP...\n",
          Event.madvise (os.mmap length) length] ++
        strideWrites (os.mmap length) 2097152 0 (strideCount 2097152 length) ++
        strideWrites (os.mmap length) 4096 0 (strideCount 4096 length)) := by
  have hf := Nat.lt_of_le_of_lt (strideCount_le 4096 length (by norm_num)) hfuel
  have hc := Nat.lt_of_le_of_lt (strideCount_le 2097152 length (by norm_num)) hfuel
  have e1 := faultLoop_eq (os.mmap length) 4096 length fuel (by norm_num) (by omega) hf
  have e2 := faultLoop_eq (os.mmap length) (2 * 1024 * 1024) length fuel (by norm_num) hlen hc
  unfold mmap_anon_mem
  simp only [hmap, hadv, if_false, if_true, ne_eq, not_true_eq_false]
  rw [e2, e1]

/-- The offsets written by a run without huge pages. -/
theorem writeOffsets_plain (addr length : Nat) :
    writeOffsets ([Event.mmap length] ++ strideWrites addr 4096 0 (strideCount 4096 length)) =
      (List.range (strideCount 4096 length)).map (fun k => k * 4096) := by
  have h : writeOffsets [Event.mmap length] = [] := rfl
  rw [writeOffsets_append, h, List.nil_append, writeOffsets_strideWrites_zero]

/-- The offsets written by a run with huge pages: the coarse ones, then the fine ones. -/
theorem writeOffsets_huge (addr length : Nat) :
    writeOffsets ([Event.mmap length, Event.stdout "Asking for THP...\n",
        Event.madvise addr length] ++
      strideWrites addr 2097152 0 (strideCount 2097152 length) ++
      strideWrites addr 4096 0 (strideCount 4096 length)) =
      (List.range (strideCount 2097152 length)).map (fun k => k * 2097152) ++
        (List.range (strideCount 4096 length)).map (fun k => k * 4096) := by
  have h : writeOffsets [Event.mmap length, Event.stdout "Asking for THP...\n",
      Event.madvise addr length] = [] := rfl
  rw [writeOffsets_append, writeOffsets_append, h, List.nil_append]
  simp only [writeOffsets_strideWrites_zero]

/-! ## Failure paths of `mmap_anon_mem` -/

/-- C1: when the mapping call reports failure, `mmap_anon_mem` returns `NULL`, whatever the
length, the flag and the fuel, and its trace holds no fault-in write, no `madvise` call and
no `munmap` call. -/
theorem mmap_failure_returns_null (os : OS) (fuel length : Nat) (ask_huge_pages : Bool)
    (hfail : os.mmap length = MAP_FAILED) :
    ∃ t, mmap_anon_mem os fuel length ask_huge_pages = some (NULL, t) ∧
      writeOffsets t = [] ∧ madviseCalls t = [] ∧ munmapCalls t = [] := by
  refine ⟨[Event.mmap length, Event.perror "mmap()"], ?_, rfl, rfl, rfl⟩
  simp [mmap_anon_mem, hfail]

theorem mmap_failure_returns_null_witness :
    osMmapFails.mmap 8192 = MAP_FAILED ∧
      ∃ t, mmap_anon_mem osMmapFails 0 8192 true = some (NULL, t) ∧
        writeOffsets t = [] ∧ madviseCalls t = [] ∧ munmapCalls t = [] :=
  ⟨rfl, mmap_failure_returns_null osMmapFails 0 8192 true rfl⟩

/-- C2: when the mapping call succeeds at `addr`, huge pages are requested and the advisory
call fails, `mmap_anon_mem` returns `NULL` after exactly one `munmap` call, made with
`(addr, length)` as its last action and after the single `madvise` call, and it performs no
fault-in write. -/
theorem madvise_failure_unmaps_once (os : OS) (fuel length : Nat)
    (hmap : os.mmap length ≠ MAP_FAILED)
    (hadv : os.madvise (os.mmap length) length ≠ 0) :
    ∃ t, mmap_anon_mem os fuel length true = some (NULL, t) ∧
      munmapCalls t = [(os.mmap length, length)] ∧
      madviseCalls t = [(os.mmap length, length)] ∧
      t.getLast? = some (Event.munmap (os.mmap length) length) ∧
      writeOffsets t = [] := by
  refine ⟨[Event.mmap length, Event.stdout "Asking for THP...\n",
    Event.madvise (os.mmap length) length, Event.perror "madvise()",
    Event.munmap (os.mmap length) length], ?_, rfl, rfl, rfl, rfl⟩
  simp [mmap_anon_mem, hmap, hadv]

theorem madvise_failure_unmaps_once_witness :
    (osMadviseFails 4096).mmap 8192 ≠ MAP_FAILED ∧
      (osMadviseFails 4096).madvise ((osMadviseFails 4096).mmap 8192) 8192 ≠ 0 ∧
      ∃ t, mmap_anon_mem (osMadviseFails 4096) 0 8192 true = some (NULL, t) ∧
        munmapCalls t = [((osMadviseFails 4096).mmap 8192, 8192)] ∧
        madviseCalls t = [((osMadviseFails 4096).mmap 8192, 8192)] ∧
        t.getLast? = some (Event.munmap ((osMadviseFails 4096).mmap 8192) 8192) ∧
        writeOffsets t = [] :=
  ⟨by decide, by decide,
    madvise_failure_unmaps_once (osMadviseFails 4096) 0 8192 (by decide) (by decide)⟩

/-! ## The two walks -/

/-- Positions in a list made of three parts. -/
theorem three_parts_get {α : Type} (xs ys zs : List α) (k : Nat) :
    (k < ys.length → (xs ++ ys ++ zs)[xs.length + k]? = ys[k]?) ∧
      (xs ++ ys ++ zs)[xs.length + ys.length + k]? = zs[k]? := by
  constructor
  · intro hk
    rw [List.append_assoc, List.getElem?_append_right (Nat.le_add_right _ _),
      Nat.add_sub_cancel_left, List.getElem?_append_left hk]
  · rw [List.getElem?_append_right (by rw [List.length_append]; omega), List.length_append,
      Nat.add_sub_cancel_left]

/-- The first three positions of a list that starts with three given elements. -/
theorem three_heads_get {α : Type} (a b c : α) (ys zs : List α) :
    ([a, b, c] ++ ys ++ zs)[0]? = some a ∧ ([a, b, c] ++ ys ++ zs)[1]? = some b ∧
      ([a, b, c] ++ ys ++ zs)[2]? = some c := by
  simp

/-- The `k`-th write of a walk that starts at offset 0. -/
theorem strideWrites_get (addr step n k : Nat) (hk : k < n) :
    (strideWrites addr step 0 n)[k]? = some (Event.write addr (k * step) 0) := by
  rw [strideWrites_zero_start, List.getElem?_map, List.getElem?_range hk]
  rfl

theorem strideWrites_length (addr step a n : Nat) :
    (strideWrites addr step a n).length = n := by
  simp [strideWrites]

/-- C3: for `0 < length ≤ 2 ^ 64 - 2 ^ 21`, when the mapping and advisory calls succeed,
the trace of `mmap_anon_mem(length, true)` is the mapping call, the message, the advisory
call at position 2, then the coarse pass and then the fine pass: with
`C = ceil (length / 2097152)` and `F = ceil (length / 4096)`, position `3 + k` holds the
write at offset `k * 2097152` for every `k < C`, position `3 + C + k` holds the write at
offset `k * 4096` for every `k < F`, and nothing follows. So the advisory call precedes
every write, and every multiple `o` of 2097152 below `length` is written at position
`3 + o / 2097152`, before position `3 + C` where the 4096-stride pass starts. -/
theorem coarse_pass_precedes_fine_pass (os : OS) (fuel length : Nat)
    (hpos : 0 < length) (hlen : length ≤ 2 ^ 64 - 2 ^ 21)
    (hmap : os.mmap length ≠ MAP_FAILED) (hadv : os.madvise (os.mmap length) length = 0)
    (hfuel : length < fuel) :
    ∃ t, mmap_anon_mem os fuel length true = some (os.mmap length, t) ∧
      t.length = 3 + (length + 2097151) / 2097152 + (length + 4095) / 4096 ∧
      t[0]? = some (Event.mmap length) ∧
      t[1]? = some (Event.stdout "Asking for THP...\n") ∧
      t[2]? = some (Event.madvise (os.mmap length) length) ∧
      (∀ k, k < (length + 2097151) / 2097152 →
        t[3 + k]? = some (Event.write (os.mmap length) (k * 2097152) 0)) ∧
      (∀ k, k < (length + 4095) / 4096 →
        t[3 + (length + 2097151) / 2097152 + k]? =
          some (Event.write (os.mmap length) (k * 4096) 0)) ∧
      (∀ o, o % 2097152 = 0 → o < length →
        o / 2097152 < (length + 2097151) / 2097152 ∧
        t[3 + o / 2097152]? = some (Event.write (os.mmap length) o 0)) ∧
      0 < (length + 4095) / 4096 := by
  have hrun := mmap_anon_mem_huge os fuel length hmap hadv (by omega) hfuel
  have hC := strideCount_coarse length
  have hF := strideCount_fine length
  have hcl := strideWrites_length (os.mmap length) 2097152 0 (strideCount 2097152 length)
  have hfl := strideWrites_length (os.mmap length) 4096 0 (strideCount 4096 length)
  have hcg := strideWrites_get (os.mmap length) 2097152 (strideCount 2097152 length)
  have hfg := strideWrites_get (os.mmap length) 4096 (strideCount 4096 length)
  have hmem : ∀ o, o % 2097152 = 0 → o < length → o / 2097152 < strideCount 2097152 length :=
    fun o hmod hlt => (lt_strideCount_iff 2097152 length _ (by norm_num)).2
      (by rw [Nat.div_mul_cancel (Nat.dvd_of_mod_eq_zero hmod)]; exact hlt)
  have hFpos : 0 < strideCount 4096 length :=
    (lt_strideCount_iff 4096 length 0 (by norm_num)).2 (by simpa using hpos)
  generalize strideWrites (os.mmap length) 2097152 0 (strideCount 2097152 length) = coarse
    at hrun hcl hcg
  generalize strideWrites (os.mmap length) 4096 0 (strideCount 4096 length) = fine
    at hrun hfl hfg
  rw [hC] at hcl hcg hmem
  rw [hF] at hfl hfg hFpos
  generalize (length + 2097151) / 2097152 = C at hcl hcg hmem ⊢
  generalize (length + 4095) / 4096 = F at hfl hfg hFpos ⊢
  have hparts := three_parts_get [Event.mmap length, Event.stdout "Asking for THP...\n",
    Event.madvise (os.mmap length) length] coarse fine
  have hheads := three_heads_get (Event.mmap length) (Event.stdout "Asking for THP...\n")
    (Event.madvise (os.mmap length) length) coarse fine
  refine ⟨_, hrun, ?_, hheads.1, hheads.2.1, hheads.2.2, ?_, ?_, ?_, hFpos⟩
  · simp only [List.length_append, hcl, hfl, List.length_cons, List.length_nil]
  · intro k hk
    have h := (hparts k).1 (by rw [hcl]; exact hk)
    rw [hcg k hk] at h
    exact h
  · intro k hk
    have h := (hparts k).2
    rw [hfg k hk, hcl] at h
    exact h
  · intro o hmod hlt
    have hk := hmem o hmod hlt
    have h := (hparts (o / 2097152)).1 (by rw [hcl]; exact hk)
    rw [hcg _ hk, Nat.div_mul_cancel (Nat.dvd_of_mod_eq_zero hmod)] at h
    exact ⟨hk, h⟩

theorem coarse_pass_precedes_fine_pass_witness :
    ∃ t, mmap_anon_mem (osOk 4096) 2097154 2097153 true =
        some ((osOk 4096).mmap 2097153, t) ∧
      t.length = 3 + (2097153 + 2097151) / 2097152 + (2097153 + 4095) / 4096 ∧
      t[0]? = some (Event.mmap 2097153) ∧
      t[1]? = some (Event.stdout "Asking for THP...\n") ∧
      t[2]? = some (Event.madvise ((osOk 4096).mmap 2097153) 2097153) ∧
      (∀ k, k < (2097153 + 2097151) / 2097152 →
        t[3 + k]? = some (Event.write ((osOk 4096).mmap 2097153) (k * 2097152) 0)) ∧
      (∀ k, k < (2097153 + 4095) / 4096 →
        t[3 + (2097153 + 2097151) / 2097152 + k]? =
          some (Event.write ((osOk 4096).mmap 2097153) (k * 4096) 0)) ∧
      (∀ o, o % 2097152 = 0 → o < 2097153 →
        o / 2097152 < (2097153 + 2097151) / 2097152 ∧
        t[3 + o / 2097152]? = some (Event.write ((osOk 4096).mmap 2097153) o 0)) ∧
      0 < (2097153 + 4095) / 4096 :=
  coarse_pass_precedes_fine_pass (osOk 4096) 2097154 2097153 (by decide) (by decide)
    (by decide) (by decide) (by decide)

/-- C4: for `0 < length ≤ 2 ^ 64 - 4096`, when the mapping call succeeds,
`mmap_anon_mem(length, false)` returns the mapped base address; its trace is the mapping
call followed by one write of the byte 0 at each offset `0, 4096, 8192, ...` below `length`,
in ascending order (`ceil (length / 4096)` writes, exactly the multiples of 4096 below
`length`), with no `madvise` and no `munmap` call; for `length = 1` the only write is at
offset 0. -/
theorem fine_walk_only (os : OS) (fuel length : Nat)
    (hpos : 0 < length) (hlen : length ≤ 2 ^ 64 - 4096)
    (hmap : os.mmap length ≠ MAP_FAILED) (hfuel : length < fuel) :
    ∃ t, mmap_anon_mem os fuel length false = some (os.mmap length, t) ∧
      t = Event.mmap length :: (List.range ((length + 4095) / 4096)).map
        (fun k => Event.write (os.mmap length) (k * 4096) 0) ∧
      writeOffsets t = (List.range ((length + 4095) / 4096)).map (fun k => k * 4096) ∧
      List.Pairwise (fun x y => x < y) (writeOffsets t) ∧
      (∀ o, o ∈ writeOffsets t ↔ o % 4096 = 0 ∧ o < length) ∧
      madviseCalls t = [] ∧ munmapCalls t = [] ∧
      (length = 1 → writeOffsets t = [0]) := by
  have hw : writeOffsets ([Event.mmap length] ++
      strideWrites (os.mmap length) 4096 0 (strideCount 4096 length)) =
      (List.range (strideCount 4096 length)).map (fun k => k * 4096) := by
    rw [writeOffsets_append, writeOffsets_strideWrites_zero]
    rfl
  refine ⟨_, mmap_anon_mem_plain os fuel length hmap (by omega) hfuel, ?_, ?_, ?_, ?_, ?_, ?_, ?_⟩
  · rw [strideWrites_zero_start]
    rfl
  · exact hw
  · rw [hw]
    exact strideOffsets_ascending 4096 _ (by norm_num)
  · intro o
    rw [hw]
    exact mem_strideOffsets 4096 length o (by norm_num)
  · simp [madviseCalls_append, madviseCalls_strideWrites, madviseCalls]
  · simp [munmapCalls_append, munmapCalls_strideWrites, munmapCalls]
  · rintro rfl
    rw [hw]
    rfl

theorem fine_walk_only_witness :
    ∃ t, mmap_anon_mem (osOk 4096) 2 1 false = some ((osOk 4096).mmap 1, t) ∧
      t = Event.mmap 1 :: (List.range ((1 + 4095) / 4096)).map
        (fun k => Event.write ((osOk 4096).mmap 1) (k * 4096) 0) ∧
      writeOffsets t = (List.range ((1 + 4095) / 4096)).map (fun k => k * 4096) ∧
      List.Pairwise (fun x y => x < y) (writeOffsets t) ∧
      (∀ o, o ∈ writeOffsets t ↔ o % 4096 = 0 ∧ o < 1) ∧
      madviseCalls t = [] ∧ munmapCalls t = [] ∧
      ((1 : Nat) = 1 → writeOffsets t = [0]) :=
  fine_walk_only (osOk 4096) 2 1 (by decide) (by decide) (by decide) (by decide)

/-- C5: for `0 < length ≤ 2 ^ 64 - 2 ^ 21`, when the mapping and advisory calls succeed,
the coarse pass of `mmap_anon_mem(length, true)` writes the offsets `k * 2097152` for
`k < ceil (length / 2097152)`, in ascending order and each once, which are exactly the
multiples of 2097152 below `length`; the fine pass follows. For `length = 5 * 1024 * 1024`
the coarse offsets are `[0, 2097152, 4194304]` and the fine pass writes the 1280 offsets
`0, 4096, ..., 5238784`. -/
theorem coarse_pass_offsets (os : OS) (fuel length : Nat)
    (hpos : 0 < length) (hlen : length ≤ 2 ^ 64 - 2 ^ 21)
    (hmap : os.mmap length ≠ MAP_FAILED) (hadv : os.madvise (os.mmap length) length = 0)
    (hfuel : length < fuel) :
    ∃ coarse fine,
      mmap_anon_mem os fuel length true =
        some (os.mmap length, [Event.mmap length, Event.stdout "Asking for THP...\n",
          Event.madvise (os.mmap length) length] ++ coarse ++ fine) ∧
      coarse = (List.range ((length + 2097151) / 2097152)).map
        (fun k => Event.write (os.mmap length) (k * 2097152) 0) ∧
      writeOffsets coarse =
        (List.range ((length + 2097151) / 2097152)).map (fun k => k * 2097152) ∧
      List.Pairwise (fun x y => x < y) (writeOffsets coarse) ∧
      (∀ o, o ∈ writeOffsets coarse ↔ o % 2097152 = 0 ∧ o < length) ∧
      fine = (List.range ((length + 4095) / 4096)).map
        (fun k => Event.write (os.mmap length) (k * 4096) 0) ∧
      (length = 5 * 1024 * 1024 →
        writeOffsets coarse = [0, 2097152, 4194304] ∧
        writeOffsets fine = (List.range 1280).map (fun k => k * 4096) ∧
        (writeOffsets fine).getLast? = some 5238784) := by
  have hw := writeOffsets_strideWrites_zero (os.mmap length)
  refine ⟨_, _, mmap_anon_mem_huge os fuel length hmap hadv (by omega) hfuel,
    ?_, ?_, ?_, ?_, ?_, ?_⟩
  · rw [strideWrites_zero_start, strideCount_coarse]
  · rw [hw, strideCount_coarse]
  · rw [hw]
    exact strideOffsets_ascending 2097152 _ (by norm_num)
  · intro o
    rw [hw]
    exact mem_strideOffsets 2097152 length o (by norm_num)
  · rw [strideWrites_zero_start, strideCount_fine]
  · rintro rfl
    refine ⟨?_, ?_, ?_⟩
    · rw [hw, strideCount_coarse]
      decide
    · rw [hw, strideCount_fine]
    · rw [hw, strideCount_fine]
      have h : (5 * 1024 * 1024 + 4095) / 4096 = 1279 + 1 := by norm_num
      rw [h, List.range_succ, List.map_append, List.getLast?_append]
      rfl

theorem coarse_pass_offsets_witness :
    ∃ coarse fine,
      mmap_anon_mem (osOk 4096) 5242881 (5 * 1024 * 1024) true =
        some ((osOk 4096).mmap (5 * 1024 * 1024),
          [Event.mmap (5 * 1024 * 1024), Event.stdout "Asking for THP...\n",
            Event.madvise ((osOk 4096).mmap (5 * 1024 * 1024)) (5 * 1024 * 1024)] ++
          coarse ++ fine) ∧
      coarse = (List.range ((5 * 1024 * 1024 + 2097151) / 2097152)).map
        (fun k => Event.write ((osOk 4096).mmap (5 * 1024 * 1024)) (k * 2097152) 0) ∧
      writeOffsets coarse =
        (List.range ((5 * 1024 * 1024 + 2097151) / 2097152)).map (fun k => k * 2097152) ∧
      List.Pairwise (fun x y => x < y) (writeOffsets coarse) ∧
      (∀ o, o ∈ writeOffsets coarse ↔ o % 2097152 = 0 ∧ o < 5 * 1024 * 1024) ∧
      fine = (List.range ((5 * 1024 * 1024 + 4095) / 4096)).map
        (fun k => Event.write ((osOk 4096).mmap (5 * 1024 * 1024)) (k * 4096) 0) ∧
      (5 * 1024 * 1024 = 5 * 1024 * 1024 →
        writeOffsets coarse = [0, 2097152, 4194304] ∧
        writeOffsets fine = (List.range 1280).map (fun k => k * 4096) ∧
        (writeOffsets fine).getLast? = some 5238784) :=
  coarse_pass_offsets (osOk 4096) 5242881 (5 * 1024 * 1024) (by decide) (by decide)
    (by decide) (by decide) (by decide)

/-- C6: for `0 < length ≤ 2 ^ 64 - 2 ^ 21` and either flag value, when the mapping call
(and, with the flag set, the advisory call) succeeds, `mmap_anon_mem` returns the mapped
address; for every byte offset `b < length` the write trace contains the start
`4096 * (b / 4096)` of its page, every written offset is below `length`, and the offsets
written are the same as those written with the flag cleared. -/
theorem every_page_written (os : OS) (fuel length : Nat) (ask_huge_pages : Bool)
    (hpos : 0 < length) (hlen : length ≤ 2 ^ 64 - 2 ^ 21)
    (hmap : os.mmap length ≠ MAP_FAILED)
    (hadv : ask_huge_pages = true → os.madvise (os.mmap length) length = 0)
    (hfuel : length < fuel) :
    ∃ t tPlain,
      mmap_anon_mem os fuel length ask_huge_pages = some (os.mmap length, t) ∧
      mmap_anon_mem os fuel length false = some (os.mmap length, tPlain) ∧
      (∀ b, b < length → 4096 * (b / 4096) ∈ writeOffsets t) ∧
      (∀ o, o ∈ writeOffsets t → o < length) ∧
      (∀ o, o ∈ writeOffsets t ↔ o ∈ writeOffsets tPlain) := by
  have hplain := mmap_anon_mem_plain os fuel length hmap (by omega) hfuel
  have hchar : ∀ o, o ∈ writeOffsets ([Event.mmap length] ++
      strideWrites (os.mmap length) 4096 0 (strideCount 4096 length)) ↔
      o % 4096 = 0 ∧ o < length := by
    intro o
    rw [writeOffsets_plain]
    exact mem_strideOffsets 4096 length o (by norm_num)
  have key : ∀ t, (∀ o, o ∈ writeOffsets t ↔ o % 4096 = 0 ∧ o < length) →
      (∀ b, b < length → 4096 * (b / 4096) ∈ writeOffsets t) ∧
      (∀ o, o ∈ writeOffsets t → o < length) ∧
      (∀ o, o ∈ writeOffsets t ↔ o ∈ writeOffsets ([Event.mmap length] ++
        strideWrites (os.mmap length) 4096 0 (strideCount 4096 length))) := by
    intro t ht
    refine ⟨fun b hb => (ht _).2 ⟨Nat.mul_mod_right 4096 _, ?_⟩, fun o ho => ((ht o).1 ho).2,
      fun o => (ht o).trans (hchar o).symm⟩
    exact Nat.lt_of_le_of_lt (Nat.mul_div_le b 4096) hb
  cases ask_huge_pages with
  | false => exact ⟨_, _, hplain, hplain, key _ hchar⟩
  | true =>
    refine ⟨_, _, mmap_anon_mem_huge os fuel length hmap (hadv rfl) (by omega) hfuel, hplain,
      key _ ?_⟩
    intro o
    have h1 := mem_strideOffsets 2097152 length o (by norm_num)
    have h2 := mem_strideOffsets 4096 length o (by norm_num)
    rw [writeOffsets_huge, List.mem_append]
    constructor
    · rintro (h | h)
      · have h3 := h1.1 h
        omega
      · exact h2.1 h
    · intro h
      exact Or.inr (h2.2 h)

theorem every_page_written_witness :
    ∃ t tPlain,
      mmap_anon_mem (osOk 4096) 4098 4097 true = some ((osOk 4096).mmap 4097, t) ∧
      mmap_anon_mem (osOk 4096) 4098 4097 false = some ((osOk 4096).mmap 4097, tPlain) ∧
      (∀ b, b < 4097 → 4096 * (b / 4096) ∈ writeOffsets t) ∧
      (∀ o, o ∈ writeOffsets t → o < 4097) ∧
      (∀ o, o ∈ writeOffsets t ↔ o ∈ writeOffsets tPlain) :=
  every_page_written (osOk 4096) 4098 4097 true (by decide) (by decide) (by decide)
    (fun _ => rfl) (by decide)

/-! ## Termination of the walks -/

/-- Why the walks need a region that fits: if `step` divides `2 ^ 64` and `length` exceeded
`2 ^ 64 - step`, the counter, a multiple of `step`, would be below `length` at every test
and wrap to 0. No region of that length exists in the address space. -/
theorem faultLoop_wraps (addr step length : Nat) (hdvd : step ∣ 2 ^ 64)
    (hlen : 2 ^ 64 < length + step) :
    ∀ fuel a, step ∣ a → a < 2 ^ 64 → faultLoop addr step length fuel a = none := by
  intro fuel
  induction fuel with
  | zero =>
    intro a _ _
    rfl
  | succ f ih =>
    intro a ha hlt
    have hstep : step ≤ 2 ^ 64 - a := Nat.le_of_dvd (by omega) (Nat.dvd_sub' hdvd ha)
    have h0 : a < length := by omega
    have hnext := ih ((a + step) % 2 ^ 64)
      ((Nat.dvd_mod_iff hdvd).2 (Nat.dvd_add ha (Nat.dvd_refl step)))
      (Nat.mod_lt _ (by norm_num))
    rw [faultLoop, if_pos h0, hnext]

/-- A run without huge pages never returns when `length` exceeds `2 ^ 64 - 4096`. -/
theorem mmap_anon_mem_plain_wraps (os : OS) (fuel length : Nat)
    (hmap : os.mmap length ≠ MAP_FAILED) (hlen : 2 ^ 64 - 4096 < length) :
    mmap_anon_mem os fuel length false = none := by
  have h := faultLoop_wraps (os.mmap length) 4096 length (by norm_num) (by omega) fuel 0
    (Nat.dvd_zero _) (by norm_num)
  unfold mmap_anon_mem
  simp only [hmap, if_false]
  rw [h]
  rfl

/-- A run with huge pages never returns when `length` exceeds `2 ^ 64 - 2 ^ 21`. -/
theorem mmap_anon_mem_huge_wraps (os : OS) (fuel length : Nat)
    (hmap : os.mmap length ≠ MAP_FAILED) (hadv : os.madvise (os.mmap length) length = 0)
    (hlen : 2 ^ 64 - 2 ^ 21 < length) :
    mmap_anon_mem os fuel length true = none := by
  have h := faultLoop_wraps (os.mmap length) (2 * 1024 * 1024) length (by norm_num)
    (by omega) fuel 0 (Nat.dvd_zero _) (by norm_num)
  unfold mmap_anon_mem
  simp only [hmap, hadv, if_false, if_true, ne_eq, not_true_eq_false]
  rw [h]

/-- C7: once the mapping call has succeeded, so that the region it returned lies in the
user address space (`addr + length ≤ TASK_SIZE_MAX`), and the advisory call, when requested,
has succeeded, both fault-in loops of `mmap_anon_mem` terminate within `length + 1` tests of
their conditions, for either flag value, and the function returns the mapped address; more
fuel does not change the result. -/
theorem walks_terminate (os : OS) (fuel length : Nat) (ask_huge_pages : Bool)
    (hmap : os.mmap length ≠ MAP_FAILED)
    (hfit : os.mmap length + length ≤ TASK_SIZE_MAX)
    (hadv : ask_huge_pages = true → os.madvise (os.mmap length) length = 0)
    (hfuel : length < fuel) :
    (faultLoop (os.mmap length) 4096 length fuel 0).isSome = true ∧
      (faultLoop (os.mmap length) (2 * 1024 * 1024) length fuel 0).isSome = true ∧
      (∃ t, mmap_anon_mem os fuel length ask_huge_pages = some (os.mmap length, t)) ∧
      ∀ fuel2, length < fuel2 →
        mmap_anon_mem os fuel2 length ask_huge_pages =
          mmap_anon_mem os fuel length ask_huge_pages := by
  unfold TASK_SIZE_MAX at hfit
  have hf := Nat.lt_of_le_of_lt (strideCount_le 4096 length (by norm_num)) hfuel
  have hc := Nat.lt_of_le_of_lt (strideCount_le (2 * 1024 * 1024) length (by norm_num)) hfuel
  have e1 := faultLoop_eq (os.mmap length) 4096 length fuel (by norm_num) (by omega) hf
  have e2 := faultLoop_eq (os.mmap length) (2 * 1024 * 1024) length fuel (by norm_num)
    (by omega) hc
  refine ⟨by rw [e1]; rfl, by rw [e2]; rfl, ?_, ?_⟩
  · cases ask_huge_pages with
    | false => exact ⟨_, mmap_anon_mem_plain os fuel length hmap (by omega) hfuel⟩
    | true => exact ⟨_, mmap_anon_mem_huge os fuel length hmap (hadv rfl) (by omega) hfuel⟩
  · intro fuel2 hfuel2
    cases ask_huge_pages with
    | false =>
      rw [mmap_anon_mem_plain os fuel length hmap (by omega) hfuel,
        mmap_anon_mem_plain os fuel2 length hmap (by omega) hfuel2]
    | true =>
      rw [mmap_anon_mem_huge os fuel length hmap (hadv rfl) (by omega) hfuel,
        mmap_anon_mem_huge os fuel2 length hmap (hadv rfl) (by omega) hfuel2]

theorem walks_terminate_witness :
    (faultLoop ((osOk 4096).mmap 4097) 4096 4097 4098 0).isSome = true ∧
      (faultLoop ((osOk 4096).mmap 4097) (2 * 1024 * 1024) 4097 4098 0).isSome = true ∧
      (∃ t, mmap_anon_mem (osOk 4096) 4098 4097 true = some ((osOk 4096).mmap 4097, t)) ∧
      ∀ fuel2, 4097 < fuel2 →
        mmap_anon_mem (osOk 4096) fuel2 4097 true = mmap_anon_mem (osOk 4096) 4098 4097 true :=
  walks_terminate (osOk 4096) 4098 4097 true (by decide) (by decide) (fun _ => rfl)
    (by decide)

/-! ## A request for zero bytes -/

/-- C8 (counterexample): asked for `length = 0` on a system that refuses empty mappings,
`mmap_anon_mem` still issues the mapping call before it returns `NULL`. -/
theorem zero_length_reaches_mmap :
    mmap_anon_mem (osRefusesZero 4096) 1 0 false =
        some (NULL, [Event.mmap 0, Event.perror "mmap()"]) ∧
      mmapCalls [Event.mmap 0, Event.perror "mmap()"] = [0] := by
  decide

/-- C8 (amended): asked for `length = 0`, `mmap_anon_mem` makes no check of its own: for
either flag value its first action is the mapping call with length 0, which is its only
mapping call, and it performs no write; when that call reports failure it returns `NULL`
with no advisory call and no unmap. -/
theorem zero_length_is_left_to_mmap (os : OS) (fuel : Nat) (ask_huge_pages : Bool)
    (hfuel : 0 < fuel) :
    ∃ r t, mmap_anon_mem os fuel 0 ask_huge_pages = some (r, t) ∧
      t.head? = some (Event.mmap 0) ∧ mmapCalls t = [0] ∧ writeOffsets t = [] ∧
      (os.mmap 0 = MAP_FAILED → r = NULL ∧ madviseCalls t = [] ∧ munmapCalls t = []) := by
  obtain ⟨f, rfl⟩ : ∃ f, fuel = f + 1 := ⟨fuel - 1, by omega⟩
  have hloop : ∀ step, faultLoop (os.mmap 0) step 0 (f + 1) 0 = some [] := by
    intro step
    simp [faultLoop]
  by_cases hmap : os.mmap 0 = MAP_FAILED
  · refine ⟨NULL, [Event.mmap 0, Event.perror "mmap()"], ?_, rfl, rfl, rfl,
      fun _ => ⟨rfl, rfl, rfl⟩⟩
    simp [mmap_anon_mem, hmap]
  · cases ask_huge_pages with
    | false =>
      refine ⟨os.mmap 0, [Event.mmap 0], ?_, rfl, rfl, rfl, fun h => absurd h hmap⟩
      unfold mmap_anon_mem
      simp only [hmap, if_false]
      rw [hloop]
      rfl
    | true =>
      by_cases hadv : os.madvise (os.mmap 0) 0 = 0
      · refine ⟨os.mmap 0, [Event.mmap 0, Event.stdout "Asking for THP...\n",
          Event.madvise (os.mmap 0) 0], ?_, rfl, rfl, rfl, fun h => absurd h hmap⟩
        unfold mmap_anon_mem
        simp only [hmap, hadv, if_false, if_true, ne_eq, not_true_eq_false]
        rw [hloop, hloop]
        rfl
      · refine ⟨NULL, [Event.mmap 0, Event.stdout "Asking for THP...\n",
          Event.madvise (os.mmap 0) 0, Event.perror "madvise()",
          Event.munmap (os.mmap 0) 0], ?_, rfl, rfl, rfl, fun h => absurd h hmap⟩
        simp [mmap_anon_mem, hmap, hadv]

theorem zero_length_is_left_to_mmap_witness :
    ∃ r t, mmap_anon_mem (osRefusesZero 4096) 1 0 true = some (r, t) ∧
      t.head? = some (Event.mmap 0) ∧ mmapCalls t = [0] ∧ writeOffsets t = [] ∧
      ((osRefusesZero 4096).mmap 0 = MAP_FAILED →
        r = NULL ∧ madviseCalls t = [] ∧ munmapCalls t = []) :=
  zero_length_is_left_to_mmap (osRefusesZero 4096) 1 true (by decide)

/-! ## What the caller learns from a failure -/

/-- C9 (counterexample): the value returned when the mapping call fails and the value
returned when the advisory call fails after a successful mapping are the same, `NULL`. -/
theorem failure_values_coincide :
    (mmap_anon_mem osMmapFails 0 8192 true).map Prod.fst = some NULL ∧
      (mmap_anon_mem (osMadviseFails 4096) 0 8192 true).map Prod.fst = some NULL := by
  decide

/-- C9 (amended): `mmap_anon_mem` returns the same value `NULL` when the mapping call fails
and when the advisory call fails after a successful mapping, so the returned value does not
tell which step failed. The two runs differ in their actions only: the first is the mapping
call followed by `perror` with the label `mmap()`; the second is the mapping call, the
message, the advisory call, `perror` with the label `madvise()` and the unmap call. -/
theorem failures_return_the_same_value (os os2 : OS) (fuel fuel2 length length2 : Nat)
    (ask_huge_pages : Bool)
    (hfail : os.mmap length = MAP_FAILED)
    (hmap : os2.mmap length2 ≠ MAP_FAILED)
    (hadv : os2.madvise (os2.mmap length2) length2 ≠ 0) :
    mmap_anon_mem os fuel length ask_huge_pages =
        some (NULL, [Event.mmap length, Event.perror "mmap()"]) ∧
      mmap_anon_mem os2 fuel2 length2 true =
        some (NULL, [Event.mmap length2, Event.stdout "Asking for THP...\n",
          Event.madvise (os2.mmap length2) length2, Event.perror "madvise()",
          Event.munmap (os2.mmap length2) length2]) ∧
      (mmap_anon_mem os fuel length ask_huge_pages).map Prod.fst =
        (mmap_anon_mem os2 fuel2 length2 true).map Prod.fst := by
  have h1 : mmap_anon_mem os fuel length ask_huge_pages =
      some (NULL, [Event.mmap length, Event.perror "mmap()"]) := by
    simp [mmap_anon_mem, hfail]
  have h2 : mmap_anon_mem os2 fuel2 length2 true =
      some (NULL, [Event.mmap length2, Event.stdout "Asking for THP...\n",
        Event.madvise (os2.mmap length2) length2, Event.perror "madvise()",
        Event.munmap (os2.mmap length2) length2]) := by
    simp [mmap_anon_mem, hmap, hadv]
  refine ⟨h1, h2, ?_⟩
  rw [h1, h2]
  rfl

theorem failures_return_the_same_value_witness :
    mmap_anon_mem osMmapFails 0 8192 false =
        some (NULL, [Event.mmap 8192, Event.perror "mmap()"]) ∧
      mmap_anon_mem (osMadviseFails 4096) 0 8192 true =
        some (NULL, [Event.mmap 8192, Event.stdout "Asking for THP...\n",
          Event.madvise ((osMadviseFails 4096).mmap 8192) 8192, Event.perror "madvise()",
          Event.munmap ((osMadviseFails 4096).mmap 8192) 8192]) ∧
      (mmap_anon_mem osMmapFails 0 8192 false).map Prod.fst =
        (mmap_anon_mem (osMadviseFails 4096) 0 8192 true).map Prod.fst :=
  failures_return_the_same_value osMmapFails (osMadviseFails 4096) 0 0 8192 8192 false rfl
    (by decide) (by decide)

/-! ## The length-reading loop -/

/-- C10 (the code at the failing inputs): the line ` 0` is accepted with length 0, and the
line ` -5` is accepted with length `2 ^ 64 - 5`; the loop of `main` hands these lengths on. -/
theorem spaced_lines_are_accepted :
    lengthLine [' ', '0', '\n'] = some 0 ∧
      lengthLine [' ', '-', '5', '\n'] = some 18446744073709551611 ∧
      readLength [' ', '0', '\n'] = some (0, []) ∧
      readLength [' ', '-', '5', '\n'] = some (18446744073709551611, []) := by
  decide

set_option maxRecDepth 100000 in
/-- C11 (the code at the failing input): a line of 127 nines followed by `1`, whose numeral
exceeds `2 ^ 64 - 1`, is read in two pieces; the first piece is rejected and the second,
`1`, is accepted, so the loop hands the length 1 to `mmap_anon_mem`. -/
theorem long_line_tail_is_accepted :
    2 ^ 64 - 1 < digitsValue (List.replicate 127 '9' ++ ['1']) ∧
      fgets 128 (List.replicate 127 '9' ++ ['1', '\n']) =
        some (List.replicate 127 '9', ['1', '\n']) ∧
      lengthLine (List.replicate 127 '9') = none ∧
      readLength (List.replicate 127 '9' ++ ['1', '\n']) = some (1, []) := by
  decide

/-! ## The release of the region by `main` -/

/-- The writes of a fault-in loop contain no `munmap` call. -/
theorem faultLoop_munmapCalls (addr step length : Nat) :
    ∀ fuel a t, faultLoop addr step length fuel a = some t → munmapCalls t = [] := by
  intro fuel
  induction fuel with
  | zero =>
    intro a t h
    simp [faultLoop] at h
  | succ f ih =>
    intro a t h
    rw [faultLoop] at h
    by_cases h0 : a < length
    · rw [if_pos h0] at h
      cases hc : faultLoop addr step length f ((a + step) % 2 ^ 64) with
      | none =>
        rw [hc] at h
        exact Option.noConfusion h
      | some u =>
        rw [hc] at h
        have hu := ih _ u hc
        have ht : t = Event.write addr a 0 :: u := (Option.some.inj h).symm
        rw [ht]
        simpa [munmapCalls] using hu
    · rw [if_neg h0] at h
      rw [← Option.some.inj h]
      rfl

/-- A call of `mmap_anon_mem` that returns a non-null pointer has made no `munmap` call and
returns the address given by `mmap`. -/
theorem mmap_anon_mem_success_trace (os : OS) (fuel length ptr : Nat) (ask_huge_pages : Bool)
    (t : List Event) (h : mmap_anon_mem os fuel length ask_huge_pages = some (ptr, t))
    (hptr : ptr ≠ NULL) : munmapCalls t = [] ∧ ptr = os.mmap length := by
  unfold mmap_anon_mem at h
  by_cases hmap : os.mmap length = MAP_FAILED
  · simp only [hmap, if_true] at h
    exact absurd (congrArg Prod.fst (Option.some.inj h)).symm hptr
  · simp only [hmap, if_false] at h
    cases ask_huge_pages with
    | false =>
      simp only [Bool.false_eq_true, if_false] at h
      cases hf : faultLoop (os.mmap length) 4096 length fuel 0 with
      | none =>
        rw [hf] at h
        exact Option.noConfusion h
      | some fine =>
        rw [hf] at h
        have e := Option.some.inj h
        have e1 : os.mmap length = ptr := congrArg Prod.fst e
        have e2 : [Event.mmap length] ++ fine = t := congrArg Prod.snd e
        refine ⟨?_, e1.symm⟩
        rw [← e2, munmapCalls_append, faultLoop_munmapCalls _ _ _ _ _ _ hf]
        rfl
    | true =>
      simp only [if_true] at h
      by_cases hadv : os.madvise (os.mmap length) length = 0
      · simp only [hadv, ne_eq, not_true_eq_false, if_false] at h
        cases hc : faultLoop (os.mmap length) (2 * 1024 * 1024) length fuel 0 with
        | none =>
          rw [hc] at h
          exact Option.noConfusion h
        | some coarse =>
          rw [hc] at h
          cases hf : faultLoop (os.mmap length) 4096 length fuel 0 with
          | none =>
            rw [hf] at h
            exact Option.noConfusion h
          | some fine =>
            rw [hf] at h
            have e := Option.some.inj h
            have e1 : os.mmap length = ptr := congrArg Prod.fst e
            have e2 : [Event.mmap length, Event.stdout "Asking for THP...\n",
              Event.madvise (os.mmap length) length] ++ coarse ++ fine = t :=
              congrArg Prod.snd e
            refine ⟨?_, e1.symm⟩
            rw [← e2, munmapCalls_append, munmapCalls_append,
              faultLoop_munmapCalls _ _ _ _ _ _ hf, faultLoop_munmapCalls _ _ _ _ _ _ hc]
            rfl
      · simp only [hadv, ne_eq, not_false_eq_true, if_true] at h
        exact absurd (congrArg Prod.fst (Option.some.inj h)).symm hptr

/-- C12 (counterexample): on a system whose `munmap` fails, `main` run on the input
`1`, `0`, Enter ends with `EXIT_SUCCESS`, the status of a successful release. -/
theorem failed_release_exits_with_success :
    (osMunmapFails 4096).munmap 4096 1 ≠ 0 ∧
      main (osMunmapFails 4096) 2 ['1', '\n', '0', '\n', '\n'] =
        some (EXIT_SUCCESS, [Event.mmap 1, Event.write 4096 0 0, Event.munmap 4096 1]) := by
  decide

/-- C12 (amended): when the unmap call that releases the region reports failure, `main`
still ends with the status it gives after a successful release, `EXIT_SUCCESS` if Enter was
read and `EXIT_FAILURE` at the end of the input: the value returned by `munmap` is
discarded, and the run is the same as on a system whose `munmap` succeeds. -/
theorem failed_release_keeps_status (os : OS) (fuel : Nat) (stdin rest rest2 : List Char)
    (length ptr : Nat) (ask_huge_pages : Bool) (t : List Event)
    (hlen : readLength stdin = some (length, rest))
    (hflag : readBool rest = some (ask_huge_pages, rest2))
    (hcall : mmap_anon_mem os fuel length ask_huge_pages = some (ptr, t))
    (hptr : ptr ≠ NULL) (_hfail : os.munmap ptr length ≠ 0) :
    main os fuel stdin =
        some (if waitEnter rest2 = true then EXIT_SUCCESS else EXIT_FAILURE,
          t ++ [Event.munmap ptr length]) ∧
      main (withMunmapOk os) fuel stdin = main os fuel stdin := by
  refine ⟨?_, rfl⟩
  unfold main
  simp only [hlen, hflag, hcall, hptr, if_false]
  split <;> rfl

theorem failed_release_keeps_status_witness :
    main (osMunmapFails 4096) 2 ['1', '\n', '0', '\n', '\n'] =
        some (if waitEnter ['\n'] = true then EXIT_SUCCESS else EXIT_FAILURE,
          [Event.mmap 1, Event.write 4096 0 0] ++ [Event.munmap 4096 1]) ∧
      main (withMunmapOk (osMunmapFails 4096)) 2 ['1', '\n', '0', '\n', '\n'] =
        main (osMunmapFails 4096) 2 ['1', '\n', '0', '\n', '\n'] :=
  failed_release_keeps_status (osMunmapFails 4096) 2 ['1', '\n', '0', '\n', '\n']
    ['0', '\n', '\n'] ['\n'] 1 4096 false [Event.mmap 1, Event.write 4096 0 0]
    (by decide) (by decide) (by decide) (by decide) (by decide)

/-- C13: when the two input loops have delivered `length` and the flag and
`mmap_anon_mem` has returned `ptr` with trace `t`, then, for every remaining input: if
`ptr` is not null, `main` ends after adding to `t` exactly one action, the call
`munmap(ptr, length)`, which is the only `munmap` call of the run and releases the address
given by `mmap`; if `ptr` is null, `main` adds nothing to `t` and ends with
`EXIT_FAILURE`. -/
theorem main_releases_once (os : OS) (fuel : Nat) (stdin rest rest2 : List Char)
    (length ptr : Nat) (ask_huge_pages : Bool) (t : List Event)
    (hlen : readLength stdin = some (length, rest))
    (hflag : readBool rest = some (ask_huge_pages, rest2))
    (hcall : mmap_anon_mem os fuel length ask_huge_pages = some (ptr, t)) :
    (ptr ≠ NULL →
      main os fuel stdin =
        some (if waitEnter rest2 = true then EXIT_SUCCESS else EXIT_FAILURE,
          t ++ [Event.munmap ptr length]) ∧
      munmapCalls (t ++ [Event.munmap ptr length]) = [(ptr, length)] ∧
      ptr = os.mmap length) ∧
    (ptr = NULL → main os fuel stdin = some (EXIT_FAILURE, t)) := by
  constructor
  · intro hptr
    have hs := mmap_anon_mem_success_trace os fuel length ptr ask_huge_pages t hcall hptr
    refine ⟨?_, ?_, hs.2⟩
    · unfold main
      simp only [hlen, hflag, hcall, hptr, if_false]
      split <;> rfl
    · rw [munmapCalls_append, hs.1]
      rfl
  · intro hptr
    unfold main
    simp only [hlen, hflag, hcall, hptr, if_true]

theorem main_releases_once_witness :
    (4096 ≠ NULL →
      main (osOk 4096) 2 ['1', '\n', '0', '\n', 'x'] =
        some (if waitEnter ['x'] = true then EXIT_SUCCESS else EXIT_FAILURE,
          [Event.mmap 1, Event.write 4096 0 0] ++ [Event.munmap 4096 1]) ∧
      munmapCalls ([Event.mmap 1, Event.write 4096 0 0] ++ [Event.munmap 4096 1]) =
        [(4096, 1)] ∧
      4096 = (osOk 4096).mmap 1) ∧
    (4096 = NULL →
      main (osOk 4096) 2 ['1', '\n', '0', '\n', 'x'] =
        some (EXIT_FAILURE, [Event.mmap 1, Event.write 4096 0 0])) :=
  main_releases_once (osOk 4096) 2 ['1', '\n', '0', '\n', 'x'] ['0', '\n', 'x'] ['x'] 1 4096
    false [Event.mmap 1, Event.write 4096 0 0] (by decide) (by decide) (by decide)

end DumpRam


namespace MathUtils

/-! ## `clamp_i` -/

/-- C17: for `lo ≤ hi`, `clamp_i value lo hi` lies in `[lo, hi]`, equals `value` exactly
when `lo ≤ value ≤ hi`, equals `max lo (min value hi)`, and clamping the result again with
the same bounds returns it unchanged. -/
theorem clamp_i_spec (value lo hi : Int) (h : lo ≤ hi) :
    lo ≤ clamp_i value lo hi ∧ clamp_i value lo hi ≤ hi ∧
      (clamp_i value lo hi = value ↔ lo ≤ value ∧ value ≤ hi) ∧
      clamp_i value lo hi = max lo (min value hi) ∧
      clamp_i (clamp_i value lo hi) lo hi = clamp_i value lo hi := by
  unfold clamp_i
  by_cases h1 : value < lo
  · simp only [h1, if_true]
    refine ⟨le_refl _, h, ?_, ?_, ?_⟩
    · constructor <;> intro h2 <;> omega
    · omega
    · have h3 : ¬ hi < lo := by omega
      simp [h3]
  · by_cases h2 : value > hi
    · simp only [h1, h2, if_true, if_false]
      refine ⟨h, le_refl _, ?_, ?_, ?_⟩
      · constructor <;> intro h3 <;> omega
      · omega
      · have h3 : ¬ hi < lo := by omega
        simp [h3]
    · simp only [h1, h2, if_false]
      refine ⟨by omega, by omega, ?_, ?_, ?_⟩
      · constructor
        · intro _
          omega
        · intro _
          trivial
      · omega
      · trivial

theorem clamp_i_spec_witness :
    (0 : Int) ≤ clamp_i 15 0 10 ∧ clamp_i 15 0 10 ≤ 10 ∧
      (clamp_i 15 0 10 = 15 ↔ (0 : Int) ≤ 15 ∧ (15 : Int) ≤ 10) ∧
      clamp_i 15 0 10 = max 0 (min 15 10) ∧
      clamp_i (clamp_i 15 0 10) 0 10 = clamp_i 15 0 10 :=
  clamp_i_spec 15 0 10 (by decide)


/-! ## `abs_i` -/

theorem wrap32_of_range (z : Int) (hlo : -2 ^ 31 ≤ z) (hhi : z < 2 ^ 31) : wrap32 z = z := by
  unfold wrap32
  omega

/-- C16: for every `int` other than `INT_MIN`, `abs_i value` is the absolute value of
`value`, hence non-negative; for `INT_MIN` it returns `INT_MIN`. -/
theorem abs_i_spec (value : Int) (hlo : INT_MIN ≤ value) (hhi : value ≤ INT_MAX) :
    (value ≠ INT_MIN → abs_i value = |value| ∧ 0 ≤ abs_i value) ∧
      (value = INT_MIN → abs_i value = INT_MIN) := by
  unfold INT_MIN at hlo ⊢
  unfold INT_MAX at hhi
  rcases value with n | n
  · have hn : n < 2 ^ 31 := by
      have : (n : Int) ≤ 2 ^ 31 - 1 := hhi
      omega
    have hmask : (Int.ofNat n) >>> 31 = 0 := by
      show Int.ofNat (n >>> 31) = 0
      rw [Nat.shiftRight_eq_div_pow, Nat.div_eq_of_lt hn]
      rfl
    have hxor : Int.xor (Int.ofNat n) 0 = Int.ofNat n := by
      show ((n ^^^ 0 : Nat) : Int) = Int.ofNat n
      rw [Nat.xor_zero]
      rfl
    have hval : abs_i (Int.ofNat n) = Int.ofNat n := by
      unfold abs_i
      simp only [hmask, hxor, sub_zero]
      exact wrap32_of_range _ (by have : (0 : Int) ≤ Int.ofNat n := Int.ofNat_nonneg n; omega)
        (by have : (Int.ofNat n : Int) = (n : Int) := rfl; omega)
    have hnn : (0 : Int) ≤ Int.ofNat n := Int.ofNat_nonneg n
    refine ⟨fun _ => ?_, fun h => ?_⟩
    · rw [hval, abs_of_nonneg hnn]
      exact ⟨rfl, hnn⟩
    · exfalso
      rw [h] at hnn
      omega
  · have hneg : Int.negSucc n = -((n : Int) + 1) := Int.negSucc_eq n
    have hn : n < 2 ^ 31 := by
      rw [hneg] at hlo
      omega
    have hmask : (Int.negSucc n) >>> 31 = Int.negSucc 0 := by
      show Int.negSucc (n >>> 31) = Int.negSucc 0
      rw [Nat.shiftRight_eq_div_pow, Nat.div_eq_of_lt hn]
    have hxor : Int.xor (Int.negSucc n) (Int.negSucc 0) = (n : Int) := by
      show ((n ^^^ 0 : Nat) : Int) = (n : Int)
      rw [Nat.xor_zero]
    have hone : Int.negSucc 0 = -1 := rfl
    have hval : abs_i (Int.negSucc n) = wrap32 ((n : Int) + 1) := by
      unfold abs_i
      simp only [hmask, hxor]
      rw [hone, sub_neg_eq_add]
    refine ⟨fun hne => ?_, fun h => ?_⟩
    · have hlt : (n : Int) + 1 < 2 ^ 31 := by
        rw [hneg] at hne
        omega
      rw [hval, wrap32_of_range _ (by omega) hlt, hneg, abs_neg,
        abs_of_nonneg (by omega : (0 : Int) ≤ (n : Int) + 1)]
      exact ⟨rfl, by omega⟩
    · have heq : (n : Int) + 1 = 2 ^ 31 := by
        rw [hneg] at h
        omega
      rw [hval, heq]
      rfl


theorem abs_i_spec_witness :
    ((-5 : Int) ≠ INT_MIN → abs_i (-5) = |(-5 : Int)| ∧ 0 ≤ abs_i (-5)) ∧
      ((-5 : Int) = INT_MIN → abs_i (-5) = INT_MIN) :=
  abs_i_spec (-5) (by decide) (by decide)


/-! ## `math_mod` -/

/-- The truncating remainder is smaller than the divisor in absolute value. -/
theorem tmod_bounds (x y : Int) (hy : y ≠ 0) : -|y| < x.tmod y ∧ x.tmod y < |y| := by
  rcases x with m | m <;> rcases y with n | n
  · have hn : 0 < n := Nat.pos_of_ne_zero (fun h => hy (by rw [h]; rfl))
    have h1 : (Int.ofNat m).tmod (Int.ofNat n) = ((m % n : Nat) : Int) := rfl
    have h2 := Nat.mod_lt m hn
    have h3 : |Int.ofNat n| = (n : Int) := abs_of_nonneg (Int.ofNat_nonneg n)
    rw [h1, h3]
    generalize m % n = r at h2
    omega
  · have h1 : (Int.ofNat m).tmod (Int.negSucc n) = ((m % (n + 1) : Nat) : Int) := rfl
    have h2 := Nat.mod_lt m (Nat.succ_pos n)
    have h3 : |Int.negSucc n| = (n : Int) + 1 := by
      rw [Int.negSucc_eq, abs_neg, abs_of_nonneg (by omega)]
    rw [h1, h3]
    generalize m % (n + 1) = r at h2
    omega
  · have hn : 0 < n := Nat.pos_of_ne_zero (fun h => hy (by rw [h]; rfl))
    have h1 : (Int.negSucc m).tmod (Int.ofNat n) = -(((m + 1) % n : Nat) : Int) := rfl
    have h2 := Nat.mod_lt (m + 1) hn
    have h3 : |Int.ofNat n| = (n : Int) := abs_of_nonneg (Int.ofNat_nonneg n)
    rw [h1, h3]
    generalize (m + 1) % n = r at h2
    omega
  · have h1 : (Int.negSucc m).tmod (Int.negSucc n) = -(((m + 1) % (n + 1) : Nat) : Int) := rfl
    have h2 := Nat.mod_lt (m + 1) (Nat.succ_pos n)
    have h3 : |Int.negSucc n| = (n : Int) + 1 := by
      rw [Int.negSucc_eq, abs_neg, abs_of_nonneg (by omega)]
    rw [h1, h3]
    generalize (m + 1) % (n + 1) = r at h2
    omega

/-- The value of `math_mod` without the reductions modulo `2 ^ 32`: the truncating
remainder, increased by `|y|` when it is negative. -/
theorem math_mod_eq (x y : Int) (hlo : INT_MIN ≤ y) (hhi : y ≤ INT_MAX) (hy : y ≠ 0)
    (hxy : ¬ (x = INT_MIN ∧ y = -1)) :
    math_mod x y = some (if x.tmod y < 0 then x.tmod y + |y| else x.tmod y) := by
  have hb := tmod_bounds x y hy
  have hdef : ¬ (y = 0 ∨ (x = INT_MIN ∧ y = -1)) := fun h => h.elim hy hxy
  unfold math_mod
  rw [if_neg hdef]
  unfold INT_MIN at hlo
  unfold INT_MAX at hhi
  by_cases hr : x.tmod y < 0
  · simp only [hr, if_true]
    by_cases hpos : y > 0
    · simp only [hpos, if_true]
      rw [abs_of_pos hpos] at hb ⊢
      rw [wrap32_of_range _ (by omega) (by omega)]
    · simp only [hpos, if_false]
      have hneg : y < 0 := by omega
      rw [abs_of_neg hneg] at hb ⊢
      generalize x.tmod y = r at hb hr
      unfold wrap32
      congr 1
      omega
  · simp only [hr, if_false]

/-- Two remainders of `x` by `y` that lie in `[0, |y|)` are equal. -/
theorem remainder_unique (x y r s : Int) (hr0 : 0 ≤ r) (hr : r < |y|) (hs0 : 0 ≤ s)
    (hs : s < |y|) (hdr : y ∣ x - r) (hds : y ∣ x - s) : r = s := by
  have hd : |y| ∣ r - s := by
    rw [abs_dvd]
    have := Int.dvd_sub hds hdr
    have e : x - s - (x - r) = r - s := by ring
    rwa [e] at this
  have hlt : |r - s| < |y| := by
    rw [abs_lt]
    constructor <;> omega
  have := Int.eq_zero_of_abs_lt_dvd hd hlt
  omega

/-- C15: for `int` values `x` and `y` with `y ≠ 0` and `(x, y) ≠ (INT_MIN, -1)`,
`math_mod x y` returns the Euclidean remainder: a value `r` with `0 ≤ r < |y|` and
`y ∣ x - r`, which is the only integer with these properties and equals `x % y`. -/
theorem math_mod_spec (x y : Int) (_hx : INT_MIN ≤ x ∧ x ≤ INT_MAX)
    (hy : INT_MIN ≤ y ∧ y ≤ INT_MAX) (hy0 : y ≠ 0) (hxy : ¬ (x = INT_MIN ∧ y = -1)) :
    ∃ r, math_mod x y = some r ∧ 0 ≤ r ∧ r < |y| ∧ y ∣ x - r ∧
      (∀ s, 0 ≤ s → s < |y| → y ∣ x - s → s = r) ∧ r = x % y := by
  have hb := tmod_bounds x y hy0
  have hdt : y ∣ x - x.tmod y := ⟨x.tdiv y, by rw [Int.tmod_def]; ring⟩
  refine ⟨_, math_mod_eq x y hy.1 hy.2 hy0 hxy, ?_⟩
  have h0 : 0 ≤ (if x.tmod y < 0 then x.tmod y + |y| else x.tmod y) := by
    split <;> omega
  have hlt : (if x.tmod y < 0 then x.tmod y + |y| else x.tmod y) < |y| := by
    split <;> omega
  have hdvd : y ∣ x - (if x.tmod y < 0 then x.tmod y + |y| else x.tmod y) := by
    split
    · have e : x - (x.tmod y + |y|) = x - x.tmod y - |y| := by ring
      rw [e]
      exact Int.dvd_sub hdt ((dvd_abs y y).2 (dvd_refl y))
    · exact hdt
  refine ⟨h0, hlt, hdvd, fun s hs0 hs hd => ?_, ?_⟩
  · exact remainder_unique x y s _ hs0 hs h0 hlt hd hdvd
  · exact remainder_unique x y _ _ h0 hlt (Int.emod_nonneg x hy0) (Int.emod_lt x hy0) hdvd
      (Int.dvd_sub_of_emod_eq rfl)

theorem math_mod_spec_witness :
    ∃ r, math_mod (-7) 3 = some r ∧ 0 ≤ r ∧ r < |(3 : Int)| ∧ (3 : Int) ∣ -7 - r ∧
      (∀ s, 0 ≤ s → s < |(3 : Int)| → (3 : Int) ∣ -7 - s → s = r) ∧ r = -7 % 3 :=
  math_mod_spec (-7) 3 (by decide) (by decide) (by decide) (by decide)



/-! ## `lerp` -/

/-- C14 (the code at the failing inputs): `lerp(33554432, 1, 1)` returns `+0` and not `b = 1`:
the difference `1 - 33554432` is not a `float` and rounds to `-33554432`. The operands are
data of binary32, and at `(3, 7, 0.5)` the function returns `5`. With `a = FLT_MAX` and
`b = -FLT_MAX` the difference overflows, and `lerp(a, b, 0)` is a NaN and not `a`. -/
theorem lerp_at_one_misses_b :
    IEEE.inFormat IEEE.binary32 (IEEE.Val.fin false 8388608 2) ∧
      IEEE.inFormat IEEE.binary32 (IEEE.Val.fin false 1 0) ∧
      IEEE.sub IEEE.binary32 (IEEE.Val.fin false 1 0) (IEEE.Val.fin false 8388608 2) =
        IEEE.Val.fin true 8388608 2 ∧
      lerp (IEEE.Val.fin false 8388608 2) (IEEE.Val.fin false 1 0) (IEEE.Val.fin false 1 0) =
        IEEE.Val.fin false 0 (-149) ∧
      lerp (IEEE.Val.fin false 3 0) (IEEE.Val.fin false 7 0) (IEEE.Val.fin false 1 (-1)) =
        IEEE.Val.fin false 10485760 (-21) ∧
      IEEE.inFormat IEEE.binary32 (IEEE.Val.fin false 16777215 104) ∧
      lerp (IEEE.Val.fin false 16777215 104) (IEEE.Val.fin true 16777215 104)
        (IEEE.Val.fin false 0 0) = IEEE.Val.nan := by
  refine ⟨?_, ?_, ?_, ?_, ?_, ?_, ?_⟩
  · simp [IEEE.inFormat, IEEE.binary32]
  · simp [IEEE.inFormat, IEEE.binary32]
  · decide
  · decide
  · decide
  · simp [IEEE.inFormat, IEEE.binary32]
  · decide

/-! ## `newton_sqrt_manual` -/

set_option maxRecDepth 100000 in
/-- C18 (counterexample): in binary64, `newton_sqrt_manual(2.0, 5)` returns
`6369051672525772 * 2 ^ (-52)`, whose square is below 2; and `newton_sqrt_manual(2 ^ (-1074), 1)`
divides by the guess `x / 2.0 = 0`. -/
theorem newton_undershoots_at_two :
    (newton_sqrt_manual (IEEE.Val.fin false 1 1) 5).1 =
        IEEE.Val.fin false 6369051672525772 (-52) ∧
      6369051672525772 * 6369051672525772 < 2 * 2 ^ 52 * 2 ^ 52 ∧
      newton_sqrt_manual (IEEE.Val.fin false 1 (-1074)) 1 =
        (IEEE.Val.inf false, [IEEE.Val.fin false 0 (-1074)]) := by
  decide

end MathUtils

namespace IEEE

/-! ## Rounding keeps positive numbers positive -/

theorem log2Fuel_spec :
    ∀ fuel n, 1 ≤ n → n ≤ fuel →
      2 ^ log2Fuel fuel n ≤ n ∧ n < 2 ^ (log2Fuel fuel n + 1) := by
  intro fuel
  induction fuel with
  | zero =>
    intro n h1 h2
    omega
  | succ k ih =>
    intro n h1 h2
    rw [log2Fuel]
    by_cases h : n < 2
    · rw [if_pos h]
      constructor
      · simpa using h1
      · simpa using h
    · rw [if_neg h]
      have h3 := ih (n / 2) (by omega) (by omega)
      have e1 : 2 ^ (log2Fuel k (n / 2) + 1) = 2 ^ log2Fuel k (n / 2) * 2 := pow_succ _ _
      have e2 : 2 ^ (log2Fuel k (n / 2) + 1 + 1) = 2 ^ (log2Fuel k (n / 2) + 1) * 2 :=
        pow_succ _ _
      rw [e2, e1]
      rw [e1] at h3
      constructor <;> omega

theorem log2_spec (n : Nat) (h : 1 ≤ n) : 2 ^ log2 n ≤ n ∧ n < 2 ^ (log2 n + 1) :=
  log2Fuel_spec n n h (Nat.le_refl n)

/-- Powers of two with the exponents `(e - E).toNat` and `(E - e).toNat`. -/
theorem zpow_toNat_split (e E : Int) :
    (2 : ℚ) ^ e * (2 : ℚ) ^ (E - e).toNat = (2 : ℚ) ^ E * (2 : ℚ) ^ (e - E).toNat := by
  rw [← zpow_natCast, ← zpow_natCast, ← zpow_add₀ (by norm_num), ← zpow_add₀ (by norm_num)]
  congr 1
  omega

/-- The number `floorLog2 N D` is not above the logarithm of `N / D`. -/
theorem floorLog2_le (N D : Nat) (hN : 1 ≤ N) (hD : 1 ≤ D) :
    (2 : ℚ) ^ floorLog2 N D ≤ (N : ℚ) / D := by
  have hDq : (0 : ℚ) < D := by exact_mod_cast hD
  have h1 := (log2_spec N hN).1
  have h2 := (log2_spec D hD).2
  unfold floorLog2
  dsimp only
  split
  · rename_i hc
    rw [le_div_iff₀ hDq]
    have hs := zpow_toNat_split 0 ((log2 N : Int) - (log2 D : Int))
    simp only [zpow_zero, one_mul, zero_sub, sub_zero] at hs
    have hcq : ((D * 2 ^ ((log2 N : Int) - (log2 D : Int)).toNat : Nat) : ℚ) ≤
        ((N * 2 ^ (-((log2 N : Int) - (log2 D : Int))).toNat : Nat) : ℚ) := by
      exact_mod_cast hc
    push_cast at hcq
    have hpos : (0 : ℚ) < 2 ^ (-((log2 N : Int) - (log2 D : Int))).toNat := by positivity
    have h3 : (2 : ℚ) ^ ((log2 N : Int) - (log2 D : Int)) * D *
        2 ^ (-((log2 N : Int) - (log2 D : Int))).toNat ≤
        N * 2 ^ (-((log2 N : Int) - (log2 D : Int))).toNat := by
      calc (2 : ℚ) ^ ((log2 N : Int) - (log2 D : Int)) * D *
            2 ^ (-((log2 N : Int) - (log2 D : Int))).toNat
          = D * ((2 : ℚ) ^ ((log2 N : Int) - (log2 D : Int)) *
            2 ^ (-((log2 N : Int) - (log2 D : Int))).toNat) := by ring
        _ = D * 2 ^ ((log2 N : Int) - (log2 D : Int)).toNat := by rw [← hs]
        _ ≤ N * 2 ^ (-((log2 N : Int) - (log2 D : Int))).toNat := hcq
    exact le_of_mul_le_mul_right h3 hpos
  · have e : (2 : ℚ) ^ ((log2 N : Int) - (log2 D : Int) - 1) =
        (2 : ℚ) ^ (log2 N) / (2 : ℚ) ^ (log2 D + 1) := by
      rw [← zpow_natCast, ← zpow_natCast, ← zpow_sub₀ (by norm_num)]
      congr 1
      push_cast
      ring
    rw [e, div_le_div_iff₀ (by positivity) hDq]
    have h1q : ((2 : ℚ) ^ log2 N) ≤ N := by exact_mod_cast h1
    have h2q : (D : ℚ) ≤ (2 : ℚ) ^ (log2 D + 1) := by exact_mod_cast le_of_lt h2
    exact mul_le_mul h1q h2q (le_of_lt hDq) (by exact_mod_cast Nat.zero_le N)

/-- Comparison of the scaled numerator and denominator used by `round`. -/
theorem scaled_le (N D j : Nat) (e E : Int) (hD : 1 ≤ D)
    (h : (j : ℚ) * (2 : ℚ) ^ E ≤ (N : ℚ) / D * (2 : ℚ) ^ e) :
    j * (D * 2 ^ (E - e).toNat) ≤ N * 2 ^ (e - E).toNat := by
  have hDq : (0 : ℚ) < D := by exact_mod_cast hD
  have hE : (0 : ℚ) < (2 : ℚ) ^ E := zpow_pos (by norm_num) E
  have hu : (0 : ℚ) < (2 : ℚ) ^ (E - e).toNat := by positivity
  have hs := zpow_toNat_split e E
  have h1 : (j : ℚ) * (2 : ℚ) ^ E * (D * (2 : ℚ) ^ (E - e).toNat) ≤
      (N : ℚ) / D * (2 : ℚ) ^ e * (D * (2 : ℚ) ^ (E - e).toNat) :=
    mul_le_mul_of_nonneg_right h (by positivity)
  have h2 : (N : ℚ) / D * (2 : ℚ) ^ e * (D * (2 : ℚ) ^ (E - e).toNat) =
      (2 : ℚ) ^ E * (N * (2 : ℚ) ^ (e - E).toNat) := by
    have : (N : ℚ) / D * (2 : ℚ) ^ e * (D * (2 : ℚ) ^ (E - e).toNat) =
        N * ((2 : ℚ) ^ e * (2 : ℚ) ^ (E - e).toNat) := by
      field_simp
      ring
    rw [this, hs]
    ring
  have h3 : (2 : ℚ) ^ E * ((j : ℚ) * (D * (2 : ℚ) ^ (E - e).toNat)) ≤
      (2 : ℚ) ^ E * (N * (2 : ℚ) ^ (e - E).toNat) := by
    rw [← h2]
    calc (2 : ℚ) ^ E * ((j : ℚ) * (D * (2 : ℚ) ^ (E - e).toNat))
        = (j : ℚ) * (2 : ℚ) ^ E * (D * (2 : ℚ) ^ (E - e).toNat) := by ring
      _ ≤ _ := h1
  have h4 := le_of_mul_le_mul_left h3 hE
  exact_mod_cast h4

theorem roundNearestEven_ge (A B : Nat) : A / B ≤ roundNearestEven A B := by
  unfold roundNearestEven
  split_ifs <;> omega


/-- The result of `round` is a finite number or an infinity of the requested sign. -/
theorem round_sign (f : Format) (s : Bool) (N D : Nat) (e : Int) :
    round f s N D e = Val.inf s ∨ ∃ m E, round f s N D e = Val.fin s m E := by
  unfold round
  dsimp only
  split_ifs
  · exact Or.inr ⟨_, _, rfl⟩
  · exact Or.inl rfl
  · exact Or.inr ⟨_, _, rfl⟩
  · exact Or.inl rfl
  · exact Or.inr ⟨_, _, rfl⟩

/-- The exponent chosen by `round` is not above the logarithm of the rounded number. -/
theorem chosen_exponent_le (f : Format) (hp : 1 ≤ f.prec) (N D : Nat) (e : Int)
    (hN : 1 ≤ N) (hD : 1 ≤ D) (hv : (2 : ℚ) ^ f.emin ≤ (N : ℚ) / D * (2 : ℚ) ^ e) :
    (2 : ℚ) ^ max (floorLog2 N D + e - ((f.prec : Int) - 1)) f.emin ≤
      (N : ℚ) / D * (2 : ℚ) ^ e := by
  rcases max_choice (floorLog2 N D + e - ((f.prec : Int) - 1)) f.emin with h | h
  · rw [h]
    have h1 : (2 : ℚ) ^ (floorLog2 N D + e - ((f.prec : Int) - 1)) ≤
        (2 : ℚ) ^ (floorLog2 N D + e) :=
      zpow_le_zpow_right₀ (by norm_num) (by omega)
    have h2 : (2 : ℚ) ^ (floorLog2 N D + e) = (2 : ℚ) ^ floorLog2 N D * (2 : ℚ) ^ e :=
      zpow_add₀ (by norm_num) _ _
    have h3 := floorLog2_le N D hN hD
    have he : (0 : ℚ) ≤ (2 : ℚ) ^ e := le_of_lt (zpow_pos (by norm_num) e)
    calc (2 : ℚ) ^ (floorLog2 N D + e - ((f.prec : Int) - 1))
        ≤ (2 : ℚ) ^ floorLog2 N D * (2 : ℚ) ^ e := by rw [← h2]; exact h1
      _ ≤ (N : ℚ) / D * (2 : ℚ) ^ e := mul_le_mul_of_nonneg_right h3 he
  · rw [h]
    exact hv

/-- A number that is at least the least positive datum is rounded to a positive datum. -/
theorem round_atLeastOne (f : Format) (hp : 1 ≤ f.prec) (N D : Nat) (e : Int)
    (hN : 1 ≤ N) (hD : 1 ≤ D) (hv : (2 : ℚ) ^ f.emin ≤ (N : ℚ) / D * (2 : ℚ) ^ e) :
    AtLeastOne f (round f false N D e) := by
  have hE := chosen_exponent_le f hp N D e hN hD hv
  have hmin : f.emin ≤ max (floorLog2 N D + e - ((f.prec : Int) - 1)) f.emin :=
    le_max_right _ _
  unfold AtLeastOne round
  rw [if_neg (by omega)]
  dsimp only
  generalize max (floorLog2 N D + e - ((f.prec : Int) - 1)) f.emin = E at hE hmin ⊢
  have hAB := scaled_le N D 1 e E hD (by simpa using hE)
  have hB : 0 < D * 2 ^ (E - e).toNat := Nat.mul_pos hD (by positivity)
  have hm : 1 ≤ roundNearestEven (N * 2 ^ (e - E).toNat) (D * 2 ^ (E - e).toNat) :=
    le_trans ((Nat.le_div_iff_mul_le hB).2 hAB) (roundNearestEven_ge _ _)
  generalize roundNearestEven (N * 2 ^ (e - E).toNat) (D * 2 ^ (E - e).toNat) = m at hm ⊢
  split_ifs
  · exact Or.inl rfl
  · exact Or.inr ⟨_, _, rfl, Nat.one_le_two_pow, by omega⟩
  · exact Or.inl rfl
  · exact Or.inr ⟨_, _, rfl, hm, hmin⟩

/-- A number that is at least twice the least positive datum is rounded to a datum that is
at least twice the least positive one. -/
theorem round_atLeastTwo (f : Format) (hp : 1 ≤ f.prec) (N D : Nat) (e : Int)
    (hN : 1 ≤ N) (hD : 1 ≤ D)
    (hv : (2 : ℚ) ^ (f.emin + 1) ≤ (N : ℚ) / D * (2 : ℚ) ^ e) :
    AtLeastTwo f (round f false N D e) := by
  have hv1 : (2 : ℚ) ^ f.emin ≤ (N : ℚ) / D * (2 : ℚ) ^ e :=
    le_trans (zpow_le_zpow_right₀ (by norm_num) (by omega)) hv
  have hE := chosen_exponent_le f hp N D e hN hD hv1
  have hmin : f.emin ≤ max (floorLog2 N D + e - ((f.prec : Int) - 1)) f.emin :=
    le_max_right _ _
  unfold AtLeastTwo round
  rw [if_neg (by omega)]
  dsimp only
  generalize max (floorLog2 N D + e - ((f.prec : Int) - 1)) f.emin = E at hE hmin ⊢
  have hAB := scaled_le N D 1 e E hD (by simpa using hE)
  have hB : 0 < D * 2 ^ (E - e).toNat := Nat.mul_pos hD (by positivity)
  have hm : 1 ≤ roundNearestEven (N * 2 ^ (e - E).toNat) (D * 2 ^ (E - e).toNat) :=
    le_trans ((Nat.le_div_iff_mul_le hB).2 hAB) (roundNearestEven_ge _ _)
  have hm2 : E = f.emin →
      2 ≤ roundNearestEven (N * 2 ^ (e - E).toNat) (D * 2 ^ (E - e).toNat) := by
    intro hEq
    have h2 : ((2 : Nat) : ℚ) * (2 : ℚ) ^ E ≤ (N : ℚ) / D * (2 : ℚ) ^ e := by
      rw [hEq]
      have e1 : (2 : ℚ) ^ (f.emin + 1) = (2 : ℚ) ^ f.emin * 2 := by
        rw [zpow_add₀ (by norm_num), zpow_one]
      rw [e1] at hv
      push_cast
      linarith
    exact le_trans ((Nat.le_div_iff_mul_le hB).2 (scaled_le N D 2 e E hD h2))
      (roundNearestEven_ge _ _)
  generalize roundNearestEven (N * 2 ^ (e - E).toNat) (D * 2 ^ (E - e).toNat) = m at hm hm2 ⊢
  split_ifs
  · exact Or.inl rfl
  · exact Or.inr ⟨_, _, rfl, Nat.one_le_two_pow, by omega, Or.inr (by omega)⟩
  · exact Or.inl rfl
  · refine Or.inr ⟨_, _, rfl, hm, hmin, ?_⟩
    by_cases hEq : E = f.emin
    · exact Or.inl (hm2 hEq)
    · exact Or.inr (by omega)

/-- A datum that is at least twice the least positive one, as a number. -/
theorem atLeastTwo_value (emin E : Int) (m : Nat) (hm : 1 ≤ m) (hE : emin ≤ E)
    (h : 2 ≤ m ∨ emin < E) : (2 : ℚ) ^ (emin + 1) ≤ (m : ℚ) * (2 : ℚ) ^ E := by
  have hpos : (0 : ℚ) < (2 : ℚ) ^ E := zpow_pos (by norm_num) E
  have hmq : (1 : ℚ) ≤ m := by exact_mod_cast hm
  rcases h with h | h
  · have e1 : (2 : ℚ) ^ (emin + 1) = 2 * (2 : ℚ) ^ emin := by
      rw [zpow_add₀ (by norm_num), zpow_one]
      ring
    have h2 : (2 : ℚ) ^ emin ≤ (2 : ℚ) ^ E := zpow_le_zpow_right₀ (by norm_num) hE
    have h3 : (2 : ℚ) ≤ m := by exact_mod_cast h
    rw [e1]
    exact mul_le_mul h3 h2 (le_of_lt (zpow_pos (by norm_num) emin)) (by linarith)
  · have h2 : (2 : ℚ) ^ (emin + 1) ≤ (2 : ℚ) ^ E :=
      zpow_le_zpow_right₀ (by norm_num) (by omega)
    calc (2 : ℚ) ^ (emin + 1) ≤ (2 : ℚ) ^ E := h2
      _ = 1 * (2 : ℚ) ^ E := (one_mul _).symm
      _ ≤ (m : ℚ) * (2 : ℚ) ^ E := mul_le_mul_of_nonneg_right hmq (le_of_lt hpos)

/-- A positive datum, as a number, is at least the least positive one. -/
theorem atLeastOne_value (emin E : Int) (m : Nat) (hm : 1 ≤ m) (hE : emin ≤ E) :
    (2 : ℚ) ^ emin ≤ (m : ℚ) * (2 : ℚ) ^ E := by
  have hpos : (0 : ℚ) < (2 : ℚ) ^ E := zpow_pos (by norm_num) E
  have hmq : (1 : ℚ) ≤ m := by exact_mod_cast hm
  calc (2 : ℚ) ^ emin ≤ (2 : ℚ) ^ E := zpow_le_zpow_right₀ (by norm_num) hE
    _ = 1 * (2 : ℚ) ^ E := (one_mul _).symm
    _ ≤ (m : ℚ) * (2 : ℚ) ^ E := mul_le_mul_of_nonneg_right hmq (le_of_lt hpos)


/-! ## The operations on positive data -/

/-- The sum of two finite data of positive sign, the first one not zero, is the rounding of
their exact sum. -/
theorem add_pos (f : Format) (mg mq : Nat) (eg eq : Int) (hmg : 1 ≤ mg) :
    add f (Val.fin false mg eg) (Val.fin false mq eq) =
      round f false (mg * 2 ^ (eg - min eg eq).toNat + mq * 2 ^ (eq - min eg eq).toNat) 1
        (min eg eq) := by
  have hpos : 0 < mg * 2 ^ (eg - min eg eq).toNat + mq * 2 ^ (eq - min eg eq).toNat :=
    Nat.add_pos_left (Nat.mul_pos hmg (by positivity)) _
  have hc : signed false mg * 2 ^ (eg - min eg eq).toNat +
      signed false mq * 2 ^ (eq - min eg eq).toNat =
      ((mg * 2 ^ (eg - min eg eq).toNat + mq * 2 ^ (eq - min eg eq).toNat : Nat) : Int) := by
    simp [signed]
  simp only [add]
  rw [hc]
  generalize mg * 2 ^ (eg - min eg eq).toNat + mq * 2 ^ (eq - min eg eq).toNat = c at hpos
  have h0 : ¬ ((c : Int) = 0) := by omega
  have h1 : decide ((c : Int) < 0) = false := by
    rw [decide_eq_false_iff_not]
    omega
  rw [if_neg h0, h1, Int.natAbs_ofNat]

/-- The exact sum used by `add`, as a number. -/
theorem sum_value (mg mq : Nat) (eg eq : Int) :
    ((mg * 2 ^ (eg - min eg eq).toNat + mq * 2 ^ (eq - min eg eq).toNat : Nat) : ℚ) /
        ((1 : Nat) : ℚ) * (2 : ℚ) ^ min eg eq =
      (mg : ℚ) * (2 : ℚ) ^ eg + (mq : ℚ) * (2 : ℚ) ^ eq := by
  have h1 := zpow_toNat_split eg (min eg eq)
  have h2 := zpow_toNat_split eq (min eg eq)
  have z1 : (min eg eq - eg).toNat = 0 := by
    have := min_le_left eg eq
    omega
  have z2 : (min eg eq - eq).toNat = 0 := by
    have := min_le_right eg eq
    omega
  rw [z1, pow_zero, mul_one] at h1
  rw [z2, pow_zero, mul_one] at h2
  push_cast
  rw [div_one, add_mul, h1, h2]
  ring

/-- One pass of the Babylonian loop keeps the guess positive: from a guess that is `+∞` or at
least the least positive datum, `0.5 * (guess + x / guess)` is again such a datum, for every
finite `x` that is at least the least positive datum. -/
theorem step_atLeastOne (f : Format) (hp : 1 ≤ f.prec) (he : f.emin ≤ 0) (mx : Nat)
    (ex : Int) (hmx : 1 ≤ mx) (hex : f.emin ≤ ex) (g : Val) (hg : AtLeastOne f g) :
    AtLeastOne f
      (mul f (Val.fin false 1 (-1)) (add f g (div f (Val.fin false mx ex) g))) := by
  rcases hg with rfl | ⟨mg, eg, rfl, hmg, heg⟩
  · exact Or.inl (by simp [div, add, mul])
  · have hdiv : div f (Val.fin false mx ex) (Val.fin false mg eg) =
        round f false mx mg (ex - eg) := by
      simp only [div]
      rw [if_neg (by omega)]
      rfl
    rw [hdiv]
    rcases round_sign f false mx mg (ex - eg) with hq | ⟨mq, eq, hq⟩
    · rw [hq]
      exact Or.inl (by simp [add, mul])
    · rw [hq, add_pos f mg mq eg eq hmg]
      have hsum : AtLeastTwo f (round f false
          (mg * 2 ^ (eg - min eg eq).toNat + mq * 2 ^ (eq - min eg eq).toNat) 1
          (min eg eq)) := by
        apply round_atLeastTwo f hp _ 1 _ (Nat.add_pos_left (Nat.mul_pos hmg (by positivity)) _)
          (Nat.le_refl 1)
        rw [sum_value]
        have hq0 : (0 : ℚ) ≤ (mq : ℚ) * (2 : ℚ) ^ eq :=
          mul_nonneg (by exact_mod_cast Nat.zero_le mq) (le_of_lt (zpow_pos (by norm_num) eq))
        by_cases hbig : 2 ≤ mg ∨ f.emin < eg
        · have := atLeastTwo_value f.emin eg mg hmg heg hbig
          linarith
        · have hmg1 : mg = 1 := by omega
          have heg1 : eg = f.emin := by omega
          subst hmg1
          subst heg1
          have hone : AtLeastOne f (round f false mx 1 (ex - f.emin)) := by
            apply round_atLeastOne f hp mx 1 _ hmx (Nat.le_refl 1)
            have h1 : (2 : ℚ) ^ f.emin ≤ 1 := zpow_le_one_of_nonpos₀ (by norm_num) he
            have h2 : (1 : ℚ) ≤ (2 : ℚ) ^ (ex - f.emin) :=
              one_le_zpow₀ (by norm_num) (by omega)
            have h3 : (1 : ℚ) ≤ mx := by exact_mod_cast hmx
            have h4 : (1 : ℚ) ≤ (mx : ℚ) * (2 : ℚ) ^ (ex - f.emin) := by
              calc (1 : ℚ) = 1 * 1 := (one_mul 1).symm
                _ ≤ (mx : ℚ) * (2 : ℚ) ^ (ex - f.emin) :=
                  mul_le_mul h3 h2 (by norm_num) (by linarith)
            push_cast
            rw [div_one]
            linarith
          rw [hq] at hone
          rcases hone with h | ⟨m2, E2, h, hm2, hE2⟩
          · exact Val.noConfusion h
          · have e1 : mq = m2 := by injection h
            have e2 : eq = E2 := by injection h
            subst e1
            subst e2
            have hv1 := atLeastOne_value f.emin eq mq hm2 hE2
            have e3 : (2 : ℚ) ^ (f.emin + 1) = (2 : ℚ) ^ f.emin + (2 : ℚ) ^ f.emin := by
              rw [zpow_add₀ (by norm_num), zpow_one]
              ring
            rw [e3]
            push_cast
            linarith
      rcases hsum with hs | ⟨ms, es, hs, hms, hes, hbig⟩
      · rw [hs]
        exact Or.inl (by simp [mul])
      · rw [hs]
        have hmul : mul f (Val.fin false 1 (-1)) (Val.fin false ms es) =
            round f false (1 * ms) 1 (-1 + es) := by
          simp only [mul]
          rfl
        rw [hmul]
        apply round_atLeastOne f hp _ 1 _ (by omega) (Nat.le_refl 1)
        have hv2 := atLeastTwo_value f.emin es ms hms hes hbig
        have e1 : (2 : ℚ) ^ (f.emin + 1) = (2 : ℚ) ^ f.emin * 2 := by
          rw [zpow_add₀ (by norm_num), zpow_one]
        have e2 : (2 : ℚ) ^ (-1 + es) = (2 : ℚ) ^ es / 2 := by
          rw [zpow_add₀ (by norm_num), zpow_neg_one]
          ring
        rw [e2]
        push_cast
        rw [div_one, one_mul]
        rw [e1] at hv2
        linarith

theorem isPos_of_atLeastOne (f : Format) (r : Val) (h : AtLeastOne f r) : isPos r = true := by
  rcases h with rfl | ⟨m, E, rfl, hm, _⟩
  · rfl
  · have : m ≠ 0 := by omega
    simp [isPos, this]

end IEEE

namespace MathUtils

/-- The loop keeps every divisor and the final guess positive. -/
theorem newtonLoop_positive (mx : Nat) (ex : Int) (hmx : 1 ≤ mx)
    (hex : IEEE.binary64.emin ≤ ex) :
    ∀ n guess, IEEE.AtLeastOne IEEE.binary64 guess →
      IEEE.AtLeastOne IEEE.binary64 (newtonLoop (IEEE.Val.fin false mx ex) n guess).1 ∧
      (∀ d ∈ (newtonLoop (IEEE.Val.fin false mx ex) n guess).2,
        IEEE.AtLeastOne IEEE.binary64 d) ∧
      (newtonLoop (IEEE.Val.fin false mx ex) n guess).2.length = n := by
  intro n
  induction n with
  | zero =>
    intro guess hg
    exact ⟨hg, fun d hd => absurd hd (List.not_mem_nil d), rfl⟩
  | succ n ih =>
    intro guess hg
    have hstep : IEEE.AtLeastOne IEEE.binary64 (newtonStep (IEEE.Val.fin false mx ex) guess) :=
      IEEE.step_atLeastOne IEEE.binary64 (by decide) (by decide) mx ex hmx hex guess hg
    have h := ih _ hstep
    rw [newtonLoop]
    refine ⟨h.1, ?_, ?_⟩
    · intro d hd
      rcases List.mem_cons.1 hd with rfl | hd
      · exact hg
      · exact h.2.1 d hd
    · rw [List.length_cons, h.2.2]

/-- C18 (amended): in binary64, for every finite `x ≥ 2 ^ (-1073)` and every number of
iterations, in particular `iterations ≥ 1`, `newton_sqrt_manual` makes `iterations` divisions
`x / guess`, each with a strictly positive divisor, and returns a strictly positive guess
(finite or `+∞`); for `x < 0` it returns `-1` and makes no division. -/
theorem newton_divisors_positive (x : IEEE.Val) (m : Nat) (e : Int) (iterations : Int) :
    (IEEE.inFormat IEEE.binary64 (IEEE.Val.fin false m e) → 1 ≤ m → (2 ≤ m ∨ -1074 < e) →
      (newton_sqrt_manual (IEEE.Val.fin false m e) iterations).2.length = iterations.toNat ∧
      (∀ d ∈ (newton_sqrt_manual (IEEE.Val.fin false m e) iterations).2,
        IEEE.isPos d = true) ∧
      IEEE.isPos (newton_sqrt_manual (IEEE.Val.fin false m e) iterations).1 = true) ∧
    (IEEE.ltZero x = true → newton_sqrt_manual x iterations = (minusOne, [])) := by
  constructor
  · intro hfmt hm hbig
    have hex : IEEE.binary64.emin ≤ e := hfmt.2.1
    have hbig2 : 2 ≤ m ∨ IEEE.binary64.emin < e := hbig
    have hnot : ¬ (IEEE.ltZero (IEEE.Val.fin false m e) = true) := by
      simp [IEEE.ltZero]
    have hdef : newton_sqrt_manual (IEEE.Val.fin false m e) iterations =
        newtonLoop (IEEE.Val.fin false m e) iterations.toNat
          (IEEE.div IEEE.binary64 (IEEE.Val.fin false m e) two) := by
      unfold newton_sqrt_manual
      rw [if_neg hnot]
    have hdiv : IEEE.div IEEE.binary64 (IEEE.Val.fin false m e) two =
        IEEE.round IEEE.binary64 false m 1 (e - 1) := by
      unfold two
      simp only [IEEE.div]
      rfl
    have hg0 : IEEE.AtLeastOne IEEE.binary64
        (IEEE.div IEEE.binary64 (IEEE.Val.fin false m e) two) := by
      rw [hdiv]
      apply IEEE.round_atLeastOne IEEE.binary64 (by decide) m 1 _ hm (Nat.le_refl 1)
      have hv := IEEE.atLeastTwo_value IEEE.binary64.emin e m hm hex hbig2
      have e1 : (2 : ℚ) ^ (IEEE.binary64.emin + 1) = (2 : ℚ) ^ IEEE.binary64.emin * 2 := by
        rw [zpow_add₀ (by norm_num), zpow_one]
      have e2 : (2 : ℚ) ^ (e - 1) = (2 : ℚ) ^ e / 2 := by
        rw [zpow_sub₀ (by norm_num), zpow_one]
      rw [e2]
      push_cast
      rw [div_one]
      rw [e1] at hv
      linarith
    have h := newtonLoop_positive m e hm hex iterations.toNat _ hg0
    rw [hdef]
    exact ⟨h.2.2, fun d hd => IEEE.isPos_of_atLeastOne _ d (h.2.1 d hd),
      IEEE.isPos_of_atLeastOne _ _ h.1⟩
  · intro hx
    unfold newton_sqrt_manual
    rw [if_pos hx]

set_option maxRecDepth 100000 in
theorem newton_divisors_positive_witness :
    ((newton_sqrt_manual (IEEE.Val.fin false 1 1) 5).2.length = (5 : Int).toNat ∧
      (∀ d ∈ (newton_sqrt_manual (IEEE.Val.fin false 1 1) 5).2, IEEE.isPos d = true) ∧
      IEEE.isPos (newton_sqrt_manual (IEEE.Val.fin false 1 1) 5).1 = true) ∧
    newton_sqrt_manual (IEEE.Val.fin true 1 2) 5 = (minusOne, []) :=
  ⟨(newton_divisors_positive IEEE.Val.nan 1 1 5).1
      (by simp [IEEE.inFormat, IEEE.binary64]) (by decide) (by decide),
    (newton_divisors_positive (IEEE.Val.fin true 1 2) 1 1 5).2 (by decide)⟩

end MathUtils
